import Mathlib

/-!
Verification development for the sandboxed file tools of
`src/file-tools.ts` (the `createFileTools(rootDir, mapContainerPaths)`
variant with container-path mapping, base64 file reading and structured
results).

JavaScript strings are modelled as `List Char`; byte buffers as
`List Nat` (each element `< 256`).  The relevant parts of Node's posix
`path` module (`normalize`, `join`, `resolve`, `relative`, `dirname`,
`isAbsolute`) are embedded below exactly as the source uses them (the
process runs on Linux, so `path` = `path.posix`; root directories are
assumed to be absolute paths, as `path.resolve` would otherwise consult
the process working directory).  The filesystem is a tree of directories
and files; `fs` calls that throw are modelled with `Except String`,
threading the (possibly partially mutated) tree through every call.
-/

/-- JavaScript strings, modelled as lists of characters. -/
abbrev Str := List Char

/-- Embeds a Lean string literal into the model. -/
def strL (s : String) : Str := s.data

/-- `hasPre p s` models JavaScript `s.startsWith(p)`. -/
def hasPre : Str → Str → Bool
  | [], _ => true
  | _ :: _, [] => false
  | a :: p, b :: s => a = b && hasPre p s

/-- Whether a string ends with the character `/`. -/
def endSlash : Str → Bool
  | [] => false
  | [c] => c = '/'
  | _ :: rest => endSlash rest

/-- The path segment `..`. -/
def dotdot : Str := ['.', '.']

/-- The path segment `.`. -/
def dotseg : Str := ['.']

/-- Splits a string at every `/`, keeping empty pieces (helper for
`splitSegs`). -/
def splitAux : Str → Str → List Str
  | [], cur => [cur.reverse]
  | c :: rest, cur =>
    if c = '/' then cur.reverse :: splitAux rest [] else splitAux rest (c :: cur)

/-- The non-empty `/`-separated segments of a path string. -/
def splitSegs (p : Str) : List Str :=
  (splitAux p []).filter (· ≠ [])

/-- One step of Node's `normalizeString`: processes one segment against a
reversed stack of output segments.  `allowUp` corresponds to Node's
`allowAboveRoot` (true when normalizing relative paths). -/
def normStep (allowUp : Bool) (acc : List Str) (seg : Str) : List Str :=
  if seg = dotseg then acc
  else if seg = dotdot then
    match acc with
    | [] => if allowUp then [seg] else []
    | a :: rest => if a = dotdot then seg :: a :: rest else rest
  else seg :: acc

/-- Node's `normalizeString`: resolves `.` and `..` segments. -/
def normSegs (allowUp : Bool) (segs : List Str) : List Str :=
  (segs.foldl (normStep allowUp) []).reverse

/-- Joins segments with `/` separators. -/
def interSlash : List Str → Str
  | [] => []
  | [s] => s
  | s :: rest => s ++ '/' :: interSlash rest

/-- Models `path.posix.isAbsolute` (and `path.isAbsolute` on Linux). -/
def isAbsoluteS : Str → Bool
  | [] => false
  | c :: _ => c = '/'

/-- Models `path.posix.normalize`. -/
def posixNormalize (p : Str) : Str :=
  if p = [] then dotseg
  else
    let abs := isAbsoluteS p
    let trail := endSlash p
    let body := interSlash (normSegs (!abs) (splitSegs p))
    if abs then
      if body = [] then ['/']
      else '/' :: body ++ (if trail then ['/'] else [])
    else
      if body = [] then (if trail then ['.', '/'] else dotseg)
      else body ++ (if trail then ['/'] else [])

/-- Models `path.posix.join(a, b)`. -/
def posixJoin2 (a b : Str) : Str :=
  if a = [] && b = [] then dotseg
  else if a = [] then posixNormalize b
  else if b = [] then posixNormalize a
  else posixNormalize (a ++ '/' :: b)

/-- Models `path.resolve(root, p)` under the assumption that `root` is an
absolute path (so the process working directory is never consulted). -/
def resolveAbs (root p : Str) : Str :=
  let s := if isAbsoluteS p then p else root ++ '/' :: p
  '/' :: interSlash (normSegs false (splitSegs s))

/-- Models `path.resolve(p)` for an absolute `p` (also used for
`path.resolve(rootDir)` with an absolute root). -/
def resolveAbs1 (p : Str) : Str :=
  '/' :: interSlash (normSegs false (splitSegs p))

/-- Strips the common leading segments of two segment lists, returning
the two remainders. -/
def dropCommon : List Str → List Str → List Str × List Str
  | a :: as, b :: bs =>
    if a = b then dropCommon as bs else (a :: as, b :: bs)
  | as, bs => (as, bs)

/-- Models `path.posix.relative(f, t)` for absolute `f` and `t` (Node
first resolves both arguments, then emits one `..` per leftover segment
of `f` followed by the leftover segments of `t`). -/
def pathRelative (f t : Str) : Str :=
  let fs := splitSegs (resolveAbs1 f)
  let ts := splitSegs (resolveAbs1 t)
  let r := dropCommon fs ts
  interSlash (List.replicate r.1.length dotdot ++ r.2)

/-- Models `path.dirname` on the canonical absolute paths produced by
`path.resolve` (no trailing slash, no `.`/`..` segments), which is the
only way the source applies it. -/
def dirnameCanon (p : Str) : Str :=
  '/' :: interSlash (splitSegs p).dropLast

/-! ## The path resolver of `file-tools.ts` -/

/-- The error message thrown by the source on a failed root check. -/
def outsideRootMsg : String := "Attempt to access path outside root directory"

/-- Models `resolveWithinRoot(rootDir, relativePath)`: resolves the path
against the root and checks, by a string prefix test, that the result
"stays within" the root, throwing otherwise. -/
def resolveWithinRoot (rootDir relativePath : Str) : Except String Str :=
  let resolved := resolveAbs rootDir relativePath
  if hasPre (resolveAbs1 rootDir) resolved then .ok resolved
  else .error outsideRootMsg

/-- One entry of `mapContainerPaths`: a container-path prefix paired with
its local counterpart.  `Object.entries` iterates in insertion order,
modelled by list order. -/
abbrev MapEntry := Str × Str

/-- `.replace(/\/$/, '')`: removes a single trailing slash. -/
def stripTrail (s : Str) : Str :=
  match s.reverse with
  | '/' :: r => r.reverse
  | _ => s

/-- The `for … of Object.entries(mapContainerPaths)` loop of the
`mapPath` closure: tries each entry in turn against the normalized
incoming path, falling back to the raw incoming path. -/
def mapGo (incomingPath normIncoming : Str) : List MapEntry → Str
  | [] => incomingPath
  | (cRaw, lRaw) :: rest =>
    let c := stripTrail (posixNormalize cRaw)
    if normIncoming = c || hasPre (c ++ ['/']) normIncoming then
      let r0 := normIncoming.drop c.length
      let r1 := if hasPre ['/'] r0 then r0.drop 1 else r0
      posixJoin2 (posixNormalize lRaw) r1
    else mapGo incomingPath normIncoming rest

/-- Models the `mapPath` closure: rewrites an incoming (possibly
container-side) path through the first matching mapping entry; if no
entry matches, the incoming path is returned unchanged. -/
def mapPath (maps : List MapEntry) (incomingPath : Str) : Str :=
  mapGo incomingPath (posixNormalize incomingPath) maps

/-- Models the `resolvePathWithinRoot` closure: applies the path mapping,
then — for an absolute mapped path — re-checks the root string prefix,
converts to a root-relative path and delegates to `resolveWithinRoot`;
a relative mapped path is delegated directly. -/
def resolvePathWithinRoot (rootDir : Str) (maps : List MapEntry) (p : Str) :
    Except String Str :=
  let mapped := mapPath maps p
  if isAbsoluteS mapped then
    let abs := resolveAbs1 mapped
    let rootAbs := resolveAbs1 rootDir
    if !hasPre rootAbs abs then .error outsideRootMsg
    else resolveWithinRoot rootDir (pathRelative rootAbs abs)
  else resolveWithinRoot rootDir mapped

/-! ## Filesystem model

A tree of directories and files rooted at `/`.  Directory children are
association lists in creation order (`readdirSync` enumeration order is
modelled by list order); file contents are byte lists. -/

/-- A node of the filesystem: a file with its bytes, or a directory with
its named children. -/
inductive FsTree where
  | file (content : List Nat) : FsTree
  | dir (children : List (Str × FsTree)) : FsTree

instance : Inhabited FsTree := ⟨.dir []⟩

instance : Nonempty (List (Str × FsTree)) := ⟨[]⟩

/-- Looks a name up among directory children (first match). -/
def findChild : List (Str × FsTree) → Str → Option FsTree
  | [], _ => none
  | (m, t) :: rest, n => if m = n then some t else findChild rest n

/-- Replaces the value stored under a name, appending a fresh entry when
the name is absent. -/
def setChild : List (Str × FsTree) → Str → FsTree → List (Str × FsTree)
  | [], n, t => [(n, t)]
  | (m, u) :: rest, n, t =>
    if m = n then (n, t) :: rest else (m, u) :: setChild rest n t

/-- The subtree at a path given as a segment list (absolute, relative to
the tree root). -/
def subAt : FsTree → List Str → Option FsTree
  | t, [] => some t
  | .file _, _ :: _ => none
  | .dir cs, n :: rest =>
    match findChild cs n with
    | some t => subAt t rest
    | none => none

/-- Models `fs.existsSync` at a segment path (true for files and for
directories alike). -/
def existsAt (t : FsTree) (l : List Str) : Bool :=
  (subAt t l).isSome

/-- The bytes of the file at a segment path, when that path is a file. -/
def fileAt (t : FsTree) (l : List Str) : Option (List Nat) :=
  match subAt t l with
  | some (.file c) => some c
  | _ => none

/-- Whether the node at a segment path exists and is a directory. -/
def isDirAt (t : FsTree) (l : List Str) : Bool :=
  match subAt t l with
  | some (.dir _) => true
  | _ => false

/-- Models `fs.mkdirSync(p, { recursive: true })`: creates every missing
directory along the path top-down; errors when a file is in the way,
keeping the directories already created (a thrown `mkdirSync` does not
roll back). -/
def mkdirRec : FsTree → List Str → Except String Unit × FsTree
  | .file c, l => ((if l = [] then .error "EEXIST" else .error "ENOTDIR"), .file c)
  | .dir cs, [] => (.ok (), .dir cs)
  | .dir cs, n :: rest =>
    match findChild cs n with
    | some t =>
      let r := mkdirRec t rest
      (r.1, .dir (setChild cs n r.2))
    | none =>
      let r := mkdirRec (.dir []) rest
      (r.1, .dir (cs ++ [(n, r.2)]))

/-- Models `fs.writeFileSync(p, content)`: overwrites or creates the file
at the path; the parent directory must already exist (`ENOENT`
otherwise) and neither the target nor any intermediate node may be of
the wrong kind (`EISDIR`/`ENOTDIR`). -/
def writeFileRaw : FsTree → List Str → List Nat → Except String Unit × FsTree
  | .file _, [], c => (.ok (), .file c)
  | .dir cs, [], _ => (.error "EISDIR", .dir cs)
  | .file c0, _ :: _, _ => (.error "ENOTDIR", .file c0)
  | .dir cs, n :: rest, c =>
    match rest with
    | [] =>
      match findChild cs n with
      | some (.dir _) => (.error "EISDIR", .dir cs)
      | _ => (.ok (), .dir (setChild cs n (.file c)))
    | _ :: _ =>
      match findChild cs n with
      | some t =>
        let r := writeFileRaw t rest c
        (r.1, .dir (setChild cs n r.2))
      | none => (.error "ENOENT", .dir cs)

/-- Models `fs.readFileSync(p)` returning the raw bytes. -/
def readFileRaw (t : FsTree) (l : List Str) : Except String (List Nat) :=
  match subAt t l with
  | some (.file c) => .ok c
  | some (.dir _) => .error "EISDIR"
  | none => .error "ENOENT"

mutual
/-- Models the recursive `walk(currentDir, base)` of `listFilesTool`:
directories are listed with a trailing `/` before their contents, files
as bare relative paths (`path.join(base, entry.name)`). -/
def walkT : FsTree → Str → List Str
  | .file _, _ => []
  | .dir cs, base => walkL cs base

/-- The `for (const entry of entries)` loop of `walk`. -/
def walkL : List (Str × FsTree) → Str → List Str
  | [], _ => []
  | (n, t) :: rest, base =>
    let rel := posixJoin2 base n
    (match t with
     | .file _ => [rel]
     | .dir _ => [rel ++ ['/']]) ++ walkT t rel ++ walkL rest base
end

/-! ## Base64 (Node `buffer.toString('base64')`) -/

/-- The standard base64 alphabet. -/
def b64chars : List Char :=
  (strL "ABCDEFGHIJKLMNOPQRSTUVWXYZabcdefghijklmnopqrstuvwxyz0123456789+/")

/-- The character encoding a sextet. -/
def b64c (n : Nat) : Char := b64chars.getD n '?'

/-- Models `Buffer.prototype.toString('base64')` on a byte list. -/
def b64encode : List Nat → List Char
  | [] => []
  | [a] => [b64c (a / 4), b64c (a % 4 * 16), '=', '=']
  | [a, b] => [b64c (a / 4), b64c (a % 4 * 16 + b / 16), b64c (b % 16 * 4), '=']
  | a :: b :: c :: rest =>
    [b64c (a / 4), b64c (a % 4 * 16 + b / 16), b64c (b % 16 * 4 + c / 64),
     b64c (c % 64)] ++ b64encode rest

/-- Index of a character in a character list. -/
def findIdx : List Char → Char → Option Nat
  | [], _ => none
  | a :: rest, c => if a = c then some 0 else (findIdx rest c).map (· + 1)

/-- The sextet a base64 character denotes. -/
def b64v (c : Char) : Option Nat := findIdx b64chars c

/-- A base64 decoder, used to state that the encoding is binary-safe
(byte-identical round trips). -/
def b64decode : List Char → Option (List Nat)
  | c0 :: c1 :: c2 :: c3 :: rest =>
    if c2 = '=' then
      if c3 = '=' ∧ rest = [] then
        match b64v c0, b64v c1 with
        | some v0, some v1 => some [v0 * 4 + v1 / 16]
        | _, _ => none
      else none
    else if c3 = '=' then
      if rest = [] then
        match b64v c0, b64v c1, b64v c2 with
        | some v0, some v1, some v2 =>
          some [v0 * 4 + v1 / 16, v1 % 16 * 16 + v2 / 4]
        | _, _, _ => none
      else none
    else
      match b64v c0, b64v c1, b64v c2, b64v c3, b64decode rest with
      | some v0, some v1, some v2, some v3, some tail =>
        some ([v0 * 4 + v1 / 16, v1 % 16 * 16 + v2 / 4, v2 % 4 * 64 + v3] ++ tail)
      | _, _, _, _, _ => none
  | [] => some []
  | _ => none

/-! ## The four file tools

Each tool models the `execute` member of the corresponding `Tool` object,
with the closure parameters `rootDir` and `mapContainerPaths` passed
explicitly and the host filesystem threaded through.  A tool returns the
`Except` outcome together with the filesystem as the call left it (a
thrown error does not roll mutations back). -/

/-- One element of `structure.files`. -/
structure FileSpec where
  path : Str
  content : List Nat
  descr : Option Str
deriving DecidableEq

/-- The `structure` argument of `createFileStructureTool` (`files` and
`dirs` default to `[]`, `dependencies` to `[]` via `?? []`). -/
structure StructureSpec where
  files : List FileSpec
  dirs : List Str
  dependencies : List Str
deriving DecidableEq

/-- The result object of `createFileStructureTool`. -/
structure CreateResult where
  files : List (Str × Option Str)
  dirs : List Str
  summary : Str
  dependencies : List Str
deriving DecidableEq

/-- Decimal rendering of a number, for the summary lines. -/
def natStr (n : Nat) : Str := (Nat.repr n).data

/-- The `summary` string built from the created dirs and generated
files. -/
def mkSummary (cd : List Str) (gf : List (Str × Option Str)) : Str :=
  let lines :=
    (if cd ≠ [] then
      (strL "Created " ++ natStr cd.length ++ strL " directories") :: cd
     else []) ++
    (if gf ≠ [] then
      (strL "Generated " ++ natStr gf.length ++ strL " files") :: gf.map Prod.fst
     else [])
  match lines with
  | [] => []
  | l :: rest => l ++ (rest.foldl (fun acc s => acc ++ '\n' :: s) [])

/-- Appends a trailing `/` unless one is present
(`dirRelPath.endsWith('/') ? dirRelPath : dirRelPath + '/'`). -/
def dirSlash (d : Str) : Str := if endSlash d then d else d ++ ['/']

/-- Models the `ensureDir` closure of `createFileStructureTool`: resolves
the relative directory path, and creates it (recursively) when nothing
exists there yet, recording it — with a trailing slash — in the
`createdDirs` accumulator. -/
def ensureDir (rootDir : Str) (maps : List MapEntry) (t : FsTree)
    (cd : List Str) (dirRel : Str) : Except String Unit × FsTree × List Str :=
  match resolvePathWithinRoot rootDir maps dirRel with
  | .error e => (.error e, t, cd)
  | .ok absDir =>
    let segs := splitSegs absDir
    if existsAt t segs then (.ok (), t, cd)
    else
      match mkdirRec t segs with
      | (.ok (), t') => (.ok (), t', cd ++ [dirSlash dirRel])
      | (.error e, t') => (.error e, t', cd)

/-- The `for (const dir of structure.dirs ?? [])` loop. -/
def procDirs (rootDir : Str) (maps : List MapEntry) :
    List Str → FsTree → List Str → Except String Unit × FsTree × List Str
  | [], t, cd => (.ok (), t, cd)
  | d :: rest, t, cd =>
    match ensureDir rootDir maps t cd d with
    | (.error e, t', cd') => (.error e, t', cd')
    | (.ok (), t', cd') => procDirs rootDir maps rest t' cd'

/-- The `for (const file of structure.files ?? [])` loop: resolves each
file path, ensures its parent directory, writes the file and records the
request path (with description) among the generated files. -/
def procFiles (rootDir : Str) (maps : List MapEntry) :
    List FileSpec → FsTree → List Str → List (Str × Option Str) →
    Except String Unit × FsTree × List Str × List (Str × Option Str)
  | [], t, cd, gf => (.ok (), t, cd, gf)
  | f :: rest, t, cd, gf =>
    match resolvePathWithinRoot rootDir maps f.path with
    | .error e => (.error e, t, cd, gf)
    | .ok filePath =>
      let dirPath := dirnameCanon filePath
      match ensureDir rootDir maps t cd (pathRelative rootDir dirPath) with
      | (.error e, t', cd') => (.error e, t', cd', gf)
      | (.ok (), t', cd') =>
        match writeFileRaw t' (splitSegs filePath) f.content with
        | (.ok (), t'') => procFiles rootDir maps rest t'' cd' (gf ++ [(f.path, f.descr)])
        | (.error e, t'') => (.error e, t'', cd', gf)

/-- Models `createFileStructureTool.execute`: first creates the explicit
empty directories, then processes the files. -/
def createFileStructureTool (rootDir : Str) (maps : List MapEntry)
    (s : StructureSpec) (t : FsTree) : Except String CreateResult × FsTree :=
  match procDirs rootDir maps s.dirs t [] with
  | (.error e, t', _) => (.error e, t')
  | (.ok (), t1, cd1) =>
    match procFiles rootDir maps s.files t1 cd1 [] with
    | (.error e, t2, _, _) => (.error e, t2)
    | (.ok (), t2, cd2, gf) =>
      (.ok { files := gf, dirs := cd2, summary := mkSummary cd2 gf,
             dependencies := s.dependencies }, t2)

/-- The result object of `writeFileTool`. -/
structure WriteResult where
  written : Str
deriving DecidableEq

/-- Models `writeFileTool.execute`: resolves the path, creates the parent
directory chain (`mkdirSync(path.dirname(resolved), { recursive: true })`)
and writes the content. -/
def writeFileTool (rootDir : Str) (maps : List MapEntry) (filePath : Str)
    (content : List Nat) (t : FsTree) : Except String WriteResult × FsTree :=
  match resolvePathWithinRoot rootDir maps filePath with
  | .error e => (.error e, t)
  | .ok resolved =>
    match mkdirRec t (splitSegs (dirnameCanon resolved)) with
    | (.error e, t') => (.error e, t')
    | (.ok (), t') =>
      match writeFileRaw t' (splitSegs resolved) content with
      | (.error e, t'') => (.error e, t'')
      | (.ok (), t'') => (.ok { written := filePath }, t'')

/-- The result object of `readFileTool` (`contentBase64`). -/
structure ReadResult where
  contentBase64 : List Char
deriving DecidableEq

/-- Models `readFileTool.execute`: resolves the path, reads the bytes and
returns them base64-encoded.  `readFileSync` only observes the
filesystem, so the tree is returned unchanged. -/
def readFileTool (rootDir : Str) (maps : List MapEntry) (filePath : Str)
    (t : FsTree) : Except String ReadResult × FsTree :=
  match resolvePathWithinRoot rootDir maps filePath with
  | .error e => (.error e, t)
  | .ok resolved =>
    match readFileRaw t (splitSegs resolved) with
    | .error e => (.error e, t)
    | .ok bytes => (.ok { contentBase64 := b64encode bytes }, t)

/-- The result object of `listFilesTool`. -/
structure ListResult where
  files : List Str
deriving DecidableEq

/-- Models `listFilesTool.execute`: the path defaults to `.`, is resolved
within the root, and the directory is walked recursively
(`readdirSync`/`walk` only observe the filesystem, so the tree is
returned unchanged; a missing or non-directory path makes `readdirSync`
throw). -/
def listFilesTool (rootDir : Str) (maps : List MapEntry) (p : Option Str)
    (t : FsTree) : Except String ListResult × FsTree :=
  match resolvePathWithinRoot rootDir maps (p.getD dotseg) with
  | .error e => (.error e, t)
  | .ok resolvedDir =>
    match subAt t (splitSegs resolvedDir) with
    | some (.dir cs) => (.ok { files := walkL cs [] }, t)
    | some (.file _) => (.error "ENOTDIR", t)
    | none => (.error "ENOENT", t)

/-! ## Spec-side notions and shared test fixtures -/

/-- Boolean prefix test on segment lists. -/
def segsPre : List Str → List Str → Bool
  | [], _ => true
  | _ :: _, [] => false
  | a :: xs, b :: ys => a = b && segsPre xs ys

/-- Spec-side notion of path confinement: `p` is a descendant of (or
equal to) `root` when the canonical segment list of the root is an
initial segment of the canonical segment list of `p`. -/
def descB (root p : Str) : Bool :=
  segsPre (splitSegs (resolveAbs1 root)) (splitSegs (resolveAbs1 p))

/-- A host filesystem holding just the sandbox root directory `/w`. -/
def fsRootW : FsTree := .dir [(strL "w", .dir [])]

deriving instance DecidableEq for Except

/-! ## C1, C2: the confinement check is a string-prefix test, not a
descendant test -/

/-- C1: the claim states that every incoming path whose normalized,
canonicalized resolution is not a descendant of (or equal to) the root
makes path resolution fail with a path-security error.  The code instead
compares with `String.prototype.startsWith`: under root `/w`, the path
`../wx` resolves to `/wx`, which is not a descendant of `/w`, yet both
`resolveWithinRoot` and `resolvePathWithinRoot` accept it because `/wx`
has `/w` as a string prefix — contradicting the code's own comment
"Ensure the resolved path stays within the rootDir". -/
theorem resolveWithinRoot_accepts_sibling_escape :
    resolveWithinRoot (strL "/w") (strL "../wx") = .ok (strL "/wx") ∧
    resolvePathWithinRoot (strL "/w") [] (strL "../wx") = .ok (strL "/wx") ∧
    descB (strL "/w") (strL "/wx") = false := by decide

/-- C2: the claim states that a non-failing tool invocation only touches
descendants of the sandbox root.  Under root `/w` (with `/w` existing),
`writeFileTool` invoked on `../wx` succeeds and creates the file `/wx`,
which is not a descendant of the root. -/
theorem writeFileTool_mutates_outside_root :
    (writeFileTool (strL "/w") [] (strL "../wx") [104] fsRootW).1 =
      .ok { written := strL "../wx" } ∧
    fileAt (writeFileTool (strL "/w") [] (strL "../wx") [104] fsRootW).2
      [strL "wx"] = some [104] ∧
    descB (strL "/w") (strL "/wx") = false := by decide

/-! ## C3: failing fast does not undo earlier entries -/

/-- C3 counterexample: the claim states that a `createFileStructure`
request containing an escaping path performs no filesystem mutation at
all.  With root `/w` and `dirs = ["a", "../../x"]`, the second entry is
rejected (its resolution `/x` fails the prefix check), but the directory
`/w/a` from the first entry has already been created and remains. -/
theorem createFileStructure_mutation_before_error :
    (createFileStructureTool (strL "/w") []
        { files := [], dirs := [strL "a", strL "../../x"], dependencies := [] }
        fsRootW).1 = .error outsideRootMsg ∧
    isDirAt (createFileStructureTool (strL "/w") []
        { files := [], dirs := [strL "a", strL "../../x"], dependencies := [] }
        fsRootW).2 [strL "w", strL "a"] = true := by decide

/-! ## C8 counterexample: the absolute branch checks a string prefix, and
the relative branch can throw instead of returning the join -/

/-- C8 counterexample: the claim states that an absolute mapped path is
verified to be a descendant of the root, and that a relative mapped path
is returned joined with the root.  Under root `/w`, the absolute path
`/wx` is accepted although it is not a descendant, and the relative path
`../x` throws although its join with the root is `/x`. -/
theorem resolvePathWithinRoot_not_descendant_check :
    resolvePathWithinRoot (strL "/w") [] (strL "/wx") = .ok (strL "/wx") ∧
    descB (strL "/w") (strL "/wx") = false ∧
    resolvePathWithinRoot (strL "/w") [] (strL "../x") = .error outsideRootMsg ∧
    posixJoin2 (strL "/w") (strL "../x") = strL "/x" := by decide

/-! ## C10: reading and listing never mutate the filesystem -/

/-- C10: `readFileTool` and `listFilesTool` leave the filesystem
unchanged, whether they succeed or fail — both only perform
`readFileSync`/`readdirSync` observations. -/
theorem read_list_leave_fs_unchanged (rootDir : Str) (maps : List MapEntry)
    (p : Str) (op : Option Str) (t : FsTree) :
    (readFileTool rootDir maps p t).2 = t ∧
    (listFilesTool rootDir maps op t).2 = t := by
  constructor
  · simp only [readFileTool]
    cases h : resolvePathWithinRoot rootDir maps p with
    | error e => simp
    | ok r =>
      simp only
      cases h2 : readFileRaw t (splitSegs r) with
      | error e => simp [h2]
      | ok b => simp [h2]
  · simp only [listFilesTool]
    cases h : resolvePathWithinRoot rootDir maps (op.getD dotseg) with
    | error e => simp
    | ok r =>
      simp only
      cases hs : subAt t (splitSegs r) with
      | none => simp [hs]
      | some u => cases u with
        | file c => simp [hs]
        | dir cs => simp [hs]

/-! ## C4: path-mapping semantics -/

/-- Whether a mapping entry's (normalized, trailing-slash-stripped)
container prefix matches the normalized incoming path. -/
def entryMatch (e : MapEntry) (p : Str) : Bool :=
  let c := stripTrail (posixNormalize e.1)
  posixNormalize p = c || hasPre (c ++ ['/']) (posixNormalize p)

/-- The rewrite a matching entry performs: the matched container prefix
is replaced by the local prefix (joined onto the remainder). -/
def entrySubst (e : MapEntry) (p : Str) : Str :=
  let c := stripTrail (posixNormalize e.1)
  let r0 := (posixNormalize p).drop c.length
  let r1 := if hasPre ['/'] r0 then r0.drop 1 else r0
  posixJoin2 (posixNormalize e.2) r1

/-- Helper: `mapGo` skips non-matching entries and applies the first
matching one. -/
theorem mapGo_eq (p : Str) : ∀ maps : List MapEntry,
    ((∀ e ∈ maps, entryMatch e p = false) →
      mapGo p (posixNormalize p) maps = p) ∧
    (∀ e rest, entryMatch e p = true →
      mapGo p (posixNormalize p) (e :: rest) = entrySubst e p) ∧
    (∀ e rest, entryMatch e p = false →
      mapGo p (posixNormalize p) (e :: rest) = mapGo p (posixNormalize p) rest) := by
  intro maps
  refine ⟨?_, ?_, ?_⟩
  · intro hall
    induction maps with
    | nil => rfl
    | cons e rest ih =>
      have he : entryMatch e p = false := hall e (List.mem_cons_self e rest)
      obtain ⟨c1, c2⟩ := e
      simp only [mapGo]
      simp only [entryMatch] at he
      rw [if_neg]
      · exact ih (fun e' he' => hall e' (List.mem_cons_of_mem _ he'))
      · simp only [Bool.or_eq_false_iff] at he
        simp [he.1, he.2]
  · intro e rest hm
    obtain ⟨c1, c2⟩ := e
    simp only [mapGo]
    rw [if_pos]
    · rfl
    · simpa [entryMatch] using hm
  · intro e rest hm
    obtain ⟨c1, c2⟩ := e
    simp only [mapGo]
    rw [if_neg]
    simp only [entryMatch, Bool.or_eq_false_iff] at hm
    simp [hm.1, hm.2]

/-- C4: for every mapping table and incoming path, if the table is split
as non-matching entries, then a first matching entry `e`, then anything,
`mapPath` rewrites the path by `e`'s substitution (first match wins);
if no entry matches, the incoming path passes through unchanged. -/
theorem mapPath_first_match_wins (maps : List MapEntry) (p : Str) :
    ((∀ e ∈ maps, entryMatch e p = false) → mapPath maps p = p) ∧
    (∀ pre e post, maps = pre ++ e :: post →
      (∀ e' ∈ pre, entryMatch e' p = false) → entryMatch e p = true →
      mapPath maps p = entrySubst e p) := by
  constructor
  · intro hall
    exact (mapGo_eq p maps).1 hall
  · intro pre e post hsplit hpre hm
    subst hsplit
    unfold mapPath
    induction pre with
    | nil => exact ((mapGo_eq p (e :: post)).2.1) e post hm
    | cons e' pre' ih =>
      have h1 := ((mapGo_eq p (e' :: (pre' ++ e :: post))).2.2) e'
        (pre' ++ e :: post) (hpre e' (List.mem_cons_self e' pre'))
      rw [List.cons_append, h1]
      exact ih (fun x hx => hpre x (List.mem_cons_of_mem _ hx))

/-- Witness for C4 at a concrete table and path: the first entry does
not match, the second does and wins, and an unmatched path is returned
unchanged. -/
theorem mapPath_first_match_wins_witness :
    mapPath [(strL "/zz", strL "/q"), (strL "/c", strL "/w/l")]
        (strL "/c/f.txt") = strL "/w/l/f.txt" ∧
    mapPath [(strL "/zz", strL "/q")] (strL "data/a.txt") = strL "data/a.txt" := by
  constructor
  · have h := (mapPath_first_match_wins
      [(strL "/zz", strL "/q"), (strL "/c", strL "/w/l")] (strL "/c/f.txt")).2
      [(strL "/zz", strL "/q")] (strL "/c", strL "/w/l") [] rfl
      (by decide) (by decide)
    rw [h]
    decide
  · have h := (mapPath_first_match_wins
      [(strL "/zz", strL "/q")] (strL "data/a.txt")).1 (by decide)
    exact h

/-! ## C5: write/read round trip through base64 -/

/-- Decoding inverts the alphabet lookup on every sextet. -/
theorem b64v_b64c : ∀ v < 64, b64v (b64c v) = some v := by decide

/-- No sextet encodes to the padding character. -/
theorem b64c_ne_pad : ∀ v < 64, b64c v ≠ '=' := by decide

/-- The base64 encoding of a byte list decodes back to exactly that byte
list: the encoding is binary-safe. -/
theorem b64decode_b64encode (l : List Nat) (h : ∀ b ∈ l, b < 256) :
    b64decode (b64encode l) = some l := by
  induction l using b64encode.induct with
  | case1 => rfl
  | case2 a =>
    have ha : a < 256 := h a (by simp)
    have h0 : a / 4 < 64 := by omega
    have h1 : a % 4 * 16 < 64 := by omega
    simp only [b64encode, b64decode, if_pos rfl, b64v_b64c _ h0, b64v_b64c _ h1]
    simp only [and_self, if_true]
    have : a / 4 * 4 + a % 4 * 16 / 16 = a := by omega
    rw [this]
  | case3 a b =>
    have ha : a < 256 := h a (by simp)
    have hb : b < 256 := h b (by simp)
    have h0 : a / 4 < 64 := by omega
    have h1 : a % 4 * 16 + b / 16 < 64 := by omega
    have h2 : b % 16 * 4 < 64 := by omega
    simp only [b64encode, b64decode, if_neg (b64c_ne_pad _ h2), if_pos rfl,
      b64v_b64c _ h0, b64v_b64c _ h1, b64v_b64c _ h2]
    have e1 : a / 4 * 4 + (a % 4 * 16 + b / 16) / 16 = a := by omega
    have e2 : (a % 4 * 16 + b / 16) % 16 * 16 + b % 16 * 4 / 4 = b := by omega
    rw [e1, e2]
    simp
  | case4 a b c rest ih =>
    have ha : a < 256 := h a (by simp)
    have hb : b < 256 := h b (by simp)
    have hc : c < 256 := h c (by simp)
    have h0 : a / 4 < 64 := by omega
    have h1 : a % 4 * 16 + b / 16 < 64 := by omega
    have h2 : b % 16 * 4 + c / 64 < 64 := by omega
    have h3 : c % 64 < 64 := by omega
    have hrest : ∀ x ∈ rest, x < 256 := fun x hx => h x (by simp [hx])
    simp only [b64encode, List.cons_append, List.nil_append, List.append_eq,
      b64decode, if_neg (b64c_ne_pad _ h2), if_neg (b64c_ne_pad _ h3),
      b64v_b64c _ h0, b64v_b64c _ h1, b64v_b64c _ h2, b64v_b64c _ h3,
      ih hrest]
    have e1 : a / 4 * 4 + (a % 4 * 16 + b / 16) / 16 = a := by omega
    have e2 : (a % 4 * 16 + b / 16) % 16 * 16 + (b % 16 * 4 + c / 64) / 4 = b := by omega
    have e3 : (b % 16 * 4 + c / 64) % 4 * 64 + c % 64 = c := by omega
    rw [e1, e2, e3]

/-- Updating a child makes it the one `findChild` finds. -/
theorem findChild_set (cs : List (Str × FsTree)) (n : Str) (t : FsTree) :
    findChild (setChild cs n t) n = some t := by
  induction cs with
  | nil => simp [setChild, findChild]
  | cons e rest ih =>
    obtain ⟨m, u⟩ := e
    by_cases hm : m = n
    · simp [setChild, hm, findChild]
    · simp [setChild, hm, findChild, ih]

/-- A successful `writeFileSync` leaves the written bytes at the written
path. -/
theorem writeFileRaw_sets : ∀ (l : List Str) (t : FsTree) (c : List Nat),
    (writeFileRaw t l c).1 = .ok () →
    subAt (writeFileRaw t l c).2 l = some (.file c) := by
  intro l
  induction l with
  | nil =>
    intro t c hok
    cases t with
    | file c0 => simp [writeFileRaw, subAt]
    | dir cs => simp [writeFileRaw] at hok
  | cons n rest ih =>
    intro t c hok
    cases t with
    | file c0 => simp [writeFileRaw] at hok
    | dir cs =>
      cases rest with
      | nil =>
        cases hf : findChild cs n with
        | none =>
          simp only [writeFileRaw, hf, subAt, findChild_set]
        | some u =>
          cases u with
          | file c1 => simp only [writeFileRaw, hf, subAt, findChild_set]
          | dir g => simp [writeFileRaw, hf] at hok
      | cons n2 rest2 =>
        cases hf : findChild cs n with
        | none => simp [writeFileRaw, hf] at hok
        | some u =>
          simp only [writeFileRaw, hf] at hok ⊢
          have := ih u c hok
          simp only [subAt, findChild_set]
          exact this

/-- C5: writing any byte content to a path with `writeFileTool` and then
reading the same path with `readFileTool` returns exactly the base64
encoding of that content, which decodes back to byte-identical content. -/
theorem write_then_read_roundtrip (rootDir : Str) (maps : List MapEntry)
    (p : Str) (bytes : List Nat) (t t' : FsTree) (r : WriteResult)
    (hb : ∀ b ∈ bytes, b < 256)
    (hw : writeFileTool rootDir maps p bytes t = (.ok r, t')) :
    readFileTool rootDir maps p t' =
      (.ok { contentBase64 := b64encode bytes }, t') ∧
    b64decode (b64encode bytes) = some bytes := by
  refine ⟨?_, b64decode_b64encode bytes hb⟩
  simp only [writeFileTool] at hw
  cases hres : resolvePathWithinRoot rootDir maps p with
  | error e => rw [hres] at hw; exact absurd (congrArg Prod.fst hw) (by simp)
  | ok resolved =>
    rw [hres] at hw
    simp only at hw
    cases hmk : mkdirRec t (splitSegs (dirnameCanon resolved)) with
    | mk mr t1 =>
      rw [hmk] at hw
      cases mr with
      | error e => exact absurd (congrArg Prod.fst hw) (by simp)
      | ok u =>
        simp only at hw
        cases hwr : writeFileRaw t1 (splitSegs resolved) bytes with
        | mk wr t2 =>
          rw [hwr] at hw
          cases wr with
          | error e => exact absurd (congrArg Prod.fst hw) (by simp)
          | ok u2 =>
            simp only at hw
            have ht' : t' = t2 := (congrArg Prod.snd hw).symm
            have hset : subAt t2 (splitSegs resolved) = some (.file bytes) := by
              have := writeFileRaw_sets (splitSegs resolved) t1 bytes
                (by rw [hwr])
              rw [hwr] at this
              exact this
            subst ht'
            simp only [readFileTool, hres, readFileRaw, hset]

/-- Witness for C5 at a concrete root, path and non-text byte content. -/
theorem write_then_read_roundtrip_witness :
    readFileTool (strL "/w") [] (strL "a/b.bin")
        (writeFileTool (strL "/w") [] (strL "a/b.bin") [0, 255, 10, 77] fsRootW).2 =
      (.ok { contentBase64 := b64encode [0, 255, 10, 77] },
        (writeFileTool (strL "/w") [] (strL "a/b.bin") [0, 255, 10, 77] fsRootW).2) ∧
    b64decode (b64encode [0, 255, 10, 77]) = some [0, 255, 10, 77] :=
  write_then_read_roundtrip (strL "/w") [] (strL "a/b.bin") [0, 255, 10, 77]
    fsRootW
    (writeFileTool (strL "/w") [] (strL "a/b.bin") [0, 255, 10, 77] fsRootW).2
    { written := strL "a/b.bin" } (by decide) rfl

/-! ## C3: the amended fail-at-offending-entry behaviour -/

/-- Processing a concatenation of directory entries runs the first part,
then the second from the resulting state, stopping at the first error. -/
theorem procDirs_append (rootDir : Str) (maps : List MapEntry)
    (xs ys : List Str) : ∀ (t : FsTree) (cd : List Str),
    procDirs rootDir maps (xs ++ ys) t cd =
      match procDirs rootDir maps xs t cd with
      | (.ok _, t', cd') => procDirs rootDir maps ys t' cd'
      | (.error e, t', cd') => (.error e, t', cd') := by
  induction xs with
  | nil => intro t cd; simp [procDirs]
  | cons d rest ih =>
    intro t cd
    simp only [List.cons_append, procDirs]
    rcases hE : ensureDir rootDir maps t cd d with ⟨r1, t', cd'⟩
    cases r1 with
    | error e => simp
    | ok u => simpa using ih t' cd'

/-- Same statement for the file-processing loop. -/
theorem procFiles_append (rootDir : Str) (maps : List MapEntry)
    (xs ys : List FileSpec) : ∀ (t : FsTree) (cd : List Str)
    (gf : List (Str × Option Str)),
    procFiles rootDir maps (xs ++ ys) t cd gf =
      match procFiles rootDir maps xs t cd gf with
      | (.ok _, t', cd', gf') => procFiles rootDir maps ys t' cd' gf'
      | (.error e, t', cd', gf') => (.error e, t', cd', gf') := by
  induction xs with
  | nil => intro t cd gf; simp [procFiles]
  | cons f rest ih =>
    intro t cd gf
    simp only [List.cons_append, procFiles]
    cases hR : resolvePathWithinRoot rootDir maps f.path with
    | error e => simp
    | ok filePath =>
      simp only
      rcases hE : ensureDir rootDir maps t cd
        (pathRelative rootDir (dirnameCanon filePath)) with ⟨r1, t', cd'⟩
      cases r1 with
      | error e => simp
      | ok u =>
        simp only
        rcases hW : writeFileRaw t' (splitSegs filePath) f.content with ⟨r2, t''⟩
        cases r2 with
        | error e => simp
        | ok u2 => simpa using ih t'' cd' (gf ++ [(f.path, f.descr)])

/-- C3 (amended): when a listed directory or file path makes
`resolvePathWithinRoot` throw, `createFileStructureTool` fails with that
path-security error; nothing is executed for the offending entry or for
any later entry, but the filesystem keeps every mutation made for the
entries processed before it. -/
theorem createFileStructure_fails_at_offending_entry
    (rootDir : Str) (maps : List MapEntry) :
    (∀ (dirsPre : List Str) (bad : Str) (dirsPost : List Str)
        (files : List FileSpec) (deps : List Str) (t t1 : FsTree)
        (cd1 : List Str) (e : String),
      procDirs rootDir maps dirsPre t [] = (.ok (), t1, cd1) →
      resolvePathWithinRoot rootDir maps bad = .error e →
      createFileStructureTool rootDir maps
          { files := files, dirs := dirsPre ++ bad :: dirsPost,
            dependencies := deps } t = (.error e, t1)) ∧
    (∀ (dirs : List Str) (filesPre : List FileSpec) (bad : FileSpec)
        (filesPost : List FileSpec) (deps : List Str) (t t1 t2 : FsTree)
        (cd1 cd2 : List Str) (gf : List (Str × Option Str)) (e : String),
      procDirs rootDir maps dirs t [] = (.ok (), t1, cd1) →
      procFiles rootDir maps filesPre t1 cd1 [] = (.ok (), t2, cd2, gf) →
      resolvePathWithinRoot rootDir maps bad.path = .error e →
      createFileStructureTool rootDir maps
          { files := filesPre ++ bad :: filesPost, dirs := dirs,
            dependencies := deps } t = (.error e, t2)) := by
  constructor
  · intro dirsPre bad dirsPost files deps t t1 cd1 e hpre hbad
    simp only [createFileStructureTool, procDirs_append, hpre]
    simp only [procDirs, ensureDir, hbad]
  · intro dirs filesPre bad filesPost deps t t1 t2 cd1 cd2 gf e hdirs hpre hbad
    simp only [createFileStructureTool, hdirs]
    simp only [procFiles_append, hpre]
    simp only [procFiles, hbad]

/-- Witness for the amended C3 at a concrete request: under root `/w`,
`dirs = ["a", "../../x", "b"]` fails with the path-security error while
keeping the directory created for the leading entry `"a"`. -/
theorem createFileStructure_fails_at_offending_entry_witness :
    createFileStructureTool (strL "/w") []
        { files := [{ path := strL "f.txt", content := [1], descr := none }],
          dirs := [strL "a"] ++ strL "../../x" :: [strL "b"],
          dependencies := [] } fsRootW =
      (.error outsideRootMsg,
        (procDirs (strL "/w") [] [strL "a"] fsRootW []).2.1) :=
  (createFileStructure_fails_at_offending_entry (strL "/w") []).1
    [strL "a"] (strL "../../x") [strL "b"]
    [{ path := strL "f.txt", content := [1], descr := none }] []
    fsRootW (procDirs (strL "/w") [] [strL "a"] fsRootW []).2.1
    (procDirs (strL "/w") [] [strL "a"] fsRootW []).2.2 outsideRootMsg
    rfl rfl

/-! ## Splitting and joining segments -/

/-- A leading slash does not contribute a segment. -/
theorem splitSegs_slashCons (s : Str) : splitSegs ('/' :: s) = splitSegs s := by
  simp [splitSegs, splitAux]

/-- Splitting a slash-free string yields a single chunk. -/
theorem splitAux_single (s : Str) (h : ∀ ch ∈ s, ch ≠ '/') :
    ∀ cur, splitAux s cur = [cur.reverse ++ s] := by
  induction s with
  | nil => intro cur; simp [splitAux]
  | cons c cs ih =>
    intro cur
    have hc : c ≠ '/' := h c (by simp)
    simp only [splitAux, if_neg hc]
    rw [ih (fun ch hch => h ch (by simp [hch])) (c :: cur)]
    simp

/-- Splitting `s ++ "/" ++ y` peels off the chunk `s` when `s` is
slash-free. -/
theorem splitAux_chunk (s y : Str) (h : ∀ ch ∈ s, ch ≠ '/') :
    ∀ cur, splitAux (s ++ '/' :: y) cur = (cur.reverse ++ s) :: splitAux y [] := by
  induction s with
  | nil => intro cur; simp [splitAux]
  | cons c cs ih =>
    intro cur
    have hc : c ≠ '/' := h c (by simp)
    simp only [List.cons_append, splitAux, if_neg hc, List.append_eq]
    rw [ih (fun ch hch => h ch (by simp [hch])) (c :: cur)]
    simp

/-- Splitting inverts joining for non-empty slash-free segments. -/
theorem splitSegs_inter (segs : List Str)
    (h : ∀ x ∈ segs, x ≠ [] ∧ ∀ ch ∈ x, ch ≠ '/') :
    splitSegs (interSlash segs) = segs := by
  induction segs with
  | nil => rfl
  | cons s rest ih =>
    cases rest with
    | nil =>
      have := h s (by simp)
      simp only [interSlash, splitSegs]
      rw [splitAux_single s this.2 []]
      simp [this.1]
    | cons s2 rest2 =>
      have hs := h s (by simp)
      have hrest : ∀ x ∈ s2 :: rest2, x ≠ [] ∧ ∀ ch ∈ x, ch ≠ '/' :=
        fun x hx => h x (by simp [hx])
      simp only [interSlash, splitSegs]
      rw [splitAux_chunk s (interSlash (s2 :: rest2)) hs.2 []]
      simp only [List.reverse_nil, List.nil_append, List.filter_cons]
      rw [if_pos (by simpa using hs.1)]
      have h2 := ih hrest
      simp only [splitSegs] at h2
      rw [h2]

/-- Every segment produced by `splitSegs` is non-empty and slash-free. -/
theorem splitSegs_noSlash (p : Str) :
    ∀ x ∈ splitSegs p, x ≠ [] ∧ ∀ ch ∈ x, ch ≠ '/' := by
  have aux : ∀ (q : Str) (cur : Str), (∀ ch ∈ cur, ch ≠ '/') →
      ∀ x ∈ splitAux q cur, ∀ ch ∈ x, ch ≠ '/' := by
    intro q
    induction q with
    | nil =>
      intro cur hcur x hx ch hch
      simp only [splitAux, List.mem_singleton] at hx
      subst hx
      exact hcur ch (by simpa using hch)
    | cons c cs ih =>
      intro cur hcur x hx ch hch
      by_cases hc : c = '/'
      · simp only [splitAux, if_pos hc] at hx
        cases hx with
        | head => exact hcur ch (by simpa using hch)
        | tail _ hx2 => exact ih [] (by simp) x hx2 ch hch
      · simp only [splitAux, if_neg hc] at hx
        exact ih (c :: cur) (by
          intro ch2 hch2
          cases hch2 with
          | head => exact hc
          | tail _ hh => exact hcur ch2 hh) x hx ch hch
  intro x hx
  have hx' : x ∈ splitAux p [] := List.mem_of_mem_filter hx
  have hne : x ≠ [] := by
    have := List.of_mem_filter hx
    simpa using this
  exact ⟨hne, aux p [] (by simp) x hx'⟩

/-- `path.dirname` of a canonical absolute path drops the last segment. -/
theorem dirnameCanon_segs (p : Str) :
    splitSegs (dirnameCanon p) = (splitSegs p).dropLast := by
  unfold dirnameCanon
  rw [splitSegs_slashCons]
  exact splitSegs_inter _ (fun x hx =>
    splitSegs_noSlash p x (List.dropLast_subset _ hx))

/-! ## C9: `writeFileTool` creates missing parent directories -/

/-- Whether the recursive `mkdirSync` can succeed at a path: no file node
lies on it (missing portions can always be created). -/
def canMkdir : FsTree → List Str → Bool
  | .file _, _ => false
  | .dir _, [] => true
  | .dir cs, n :: rest =>
    match findChild cs n with
    | some t => canMkdir t rest
    | none => true

/-- Looking a name up in an appended child list searches left to right. -/
theorem findChild_append (cs ds : List (Str × FsTree)) (n : Str) :
    findChild (cs ++ ds) n =
      match findChild cs n with
      | some t => some t
      | none => findChild ds n := by
  induction cs with
  | nil => simp [findChild]
  | cons e rest ih =>
    obtain ⟨m, u⟩ := e
    by_cases hm : m = n
    · simp [findChild, hm]
    · simp [findChild, hm, ih]

/-- Updating one name leaves lookups of other names unchanged. -/
theorem findChild_set_ne (cs : List (Str × FsTree)) (n m : Str) (t : FsTree)
    (h : m ≠ n) : findChild (setChild cs n t) m = findChild cs m := by
  have hnm : n ≠ m := Ne.symm h
  induction cs with
  | nil => simp [setChild, findChild, hnm]
  | cons e rest ih =>
    obtain ⟨k, u⟩ := e
    by_cases hk : k = n
    · subst hk
      simp [setChild, findChild, hnm]
    · simp [setChild, hk, findChild, ih]

/-- When no file blocks the path, recursive `mkdirSync` succeeds. -/
theorem canMkdir_ok : ∀ (l : List Str) (t : FsTree),
    canMkdir t l = true → (mkdirRec t l).1 = .ok () := by
  intro l
  induction l with
  | nil =>
    intro t h
    cases t with
    | file c => simp [canMkdir] at h
    | dir cs => simp [mkdirRec]
  | cons n rest ih =>
    intro t h
    cases t with
    | file c => simp [canMkdir] at h
    | dir cs =>
      cases hf : findChild cs n with
      | some u =>
        simp only [canMkdir, hf] at h
        simp only [mkdirRec, hf]
        exact ih u h
      | none =>
        have : canMkdir (FsTree.dir []) rest = true := by
          induction rest with
          | nil => rfl
          | cons a b _ => simp [canMkdir, findChild]
        simp only [mkdirRec, hf]
        exact ih (.dir []) this

/-- After a successful recursive `mkdirSync` along `l`, every prefix of
`l` is a directory. -/
theorem mkdirRec_creates : ∀ (l : List Str) (t : FsTree) (q : List Str),
    (mkdirRec t l).1 = .ok () → segsPre q l = true →
    isDirAt (mkdirRec t l).2 q = true := by
  intro l
  induction l with
  | nil =>
    intro t q hok hq
    cases t with
    | file c => simp [mkdirRec] at hok
    | dir cs =>
      cases q with
      | nil => simp [mkdirRec, isDirAt, subAt]
      | cons m qr => simp [segsPre] at hq
  | cons n rest ih =>
    intro t q hok hq
    cases t with
    | file c => simp [mkdirRec] at hok
    | dir cs =>
      cases hf : findChild cs n with
      | some u =>
        simp only [mkdirRec, hf] at hok ⊢
        cases q with
        | nil => simp [isDirAt, subAt]
        | cons m qr =>
          simp only [segsPre, Bool.and_eq_true, decide_eq_true_eq] at hq
          obtain ⟨hm, hqr⟩ := hq
          subst hm
          have hrec := ih u qr hok hqr
          have h1 : subAt (FsTree.dir (setChild cs m (mkdirRec u rest).2)) (m :: qr)
              = subAt (mkdirRec u rest).2 qr := by
            simp only [subAt, findChild_set]
          simp only [isDirAt, h1]
          simp only [isDirAt] at hrec
          exact hrec
      | none =>
        simp only [mkdirRec, hf] at hok ⊢
        cases q with
        | nil => simp [isDirAt, subAt]
        | cons m qr =>
          simp only [segsPre, Bool.and_eq_true, decide_eq_true_eq] at hq
          obtain ⟨hm, hqr⟩ := hq
          subst hm
          have hrec := ih (.dir []) qr hok hqr
          have hfind : findChild (cs ++ [(m, (mkdirRec (FsTree.dir []) rest).2)]) m
              = some (mkdirRec (FsTree.dir []) rest).2 := by
            rw [findChild_append, hf]
            simp [findChild]
          have h1 : subAt (FsTree.dir (cs ++ [(m, (mkdirRec (FsTree.dir []) rest).2)]))
                (m :: qr)
              = subAt (mkdirRec (FsTree.dir []) rest).2 qr := by
            simp only [subAt, hfind]
          simp only [isDirAt, h1]
          simp only [isDirAt] at hrec
          exact hrec

/-- Recursive `mkdirSync` along `l` does not change the node found at any
path that is not a prefix of `l`. -/
theorem mkdirRec_frame : ∀ (l : List Str) (t : FsTree) (q : List Str),
    segsPre q l = false → subAt (mkdirRec t l).2 q = subAt t q := by
  intro l
  induction l with
  | nil =>
    intro t q hq
    cases t with
    | file c => rfl
    | dir cs => rfl
  | cons n rest ih =>
    intro t q hq
    cases t with
    | file c => rfl
    | dir cs =>
      cases q with
      | nil => simp [segsPre] at hq
      | cons m qr =>
        cases hf : findChild cs n with
        | some u =>
          simp only [mkdirRec, hf]
          by_cases hm : m = n
          · subst hm
            have hqr : segsPre qr rest = false := by
              simpa [segsPre] using hq
            simp only [subAt, findChild_set, hf]
            exact ih u qr hqr
          · simp only [subAt, findChild_set_ne cs n m _ hm]
        | none =>
          simp only [mkdirRec, hf]
          by_cases hm : m = n
          · subst hm
            have hqr : segsPre qr rest = false := by
              simpa [segsPre] using hq
            have hfind : findChild (cs ++ [(m, (mkdirRec (FsTree.dir []) rest).2)]) m
                = some (mkdirRec (FsTree.dir []) rest).2 := by
              rw [findChild_append, hf]
              simp [findChild]
            simp only [subAt, hfind, hf]
            rw [ih (.dir []) qr hqr]
            cases qr with
            | nil => simp [segsPre] at hqr
            | cons a b => simp [subAt, findChild]
          · have hfind : findChild (cs ++ [(n, (mkdirRec (FsTree.dir []) rest).2)]) m
                = findChild cs m := by
              rw [findChild_append]
              cases hg : findChild cs m with
              | some v => rfl
              | none => simp [findChild, Ne.symm hm]
            simp only [subAt, hfind]

/-- Segment-prefix facts. -/
theorem segsPre_refl : ∀ l : List Str, segsPre l l = true := by
  intro l
  induction l with
  | nil => rfl
  | cons a rest ih => simp [segsPre, ih]

/-- A segment prefix is no longer than the whole. -/
theorem segsPre_length : ∀ a b : List Str, segsPre a b = true →
    a.length ≤ b.length := by
  intro a
  induction a with
  | nil => intro b _; simp
  | cons x xs ih =>
    intro b h
    cases b with
    | nil => simp [segsPre] at h
    | cons y ys =>
      simp only [segsPre, Bool.and_eq_true] at h
      simpa using ih ys h.2

/-- `writeFileSync` succeeds when the parent is a directory and the
target is not one. -/
theorem writeFileRaw_ok : ∀ (l : List Str) (t : FsTree) (c : List Nat),
    l ≠ [] → isDirAt t l.dropLast = true → isDirAt t l = false →
    (writeFileRaw t l c).1 = .ok () := by
  intro l
  induction l with
  | nil => intro t c h; exact absurd rfl h
  | cons n rest ih =>
    intro t c _ hpar hnd
    cases t with
    | file c0 =>
      exfalso
      cases rest with
      | nil => simp [List.dropLast, isDirAt, subAt] at hpar
      | cons a b => simp [List.dropLast, isDirAt, subAt] at hpar
    | dir cs =>
      cases rest with
      | nil =>
        cases hf : findChild cs n with
        | none => simp [writeFileRaw, hf]
        | some u =>
          cases u with
          | file c1 => simp [writeFileRaw, hf]
          | dir g =>
            exfalso
            have : isDirAt (FsTree.dir cs) [n] = true := by
              simp [isDirAt, subAt, hf]
            rw [this] at hnd
            exact absurd hnd (by decide)
      | cons n2 rest2 =>
        have hpar2 : isDirAt (FsTree.dir cs) (n :: (n2 :: rest2).dropLast) = true := by
          simpa [List.dropLast] using hpar
        cases hf : findChild cs n with
        | none =>
          exfalso
          simp [isDirAt, subAt, hf] at hpar2
        | some t1 =>
          have hp1 : isDirAt t1 (n2 :: rest2).dropLast = true := by
            simpa [isDirAt, subAt, hf] using hpar2
          have hn1 : isDirAt t1 (n2 :: rest2) = false := by
            simpa [isDirAt, subAt, hf] using hnd
          have := ih t1 c (by simp) hp1 hn1
          simp only [writeFileRaw, hf]
          exact this

/-- A successful `writeFileSync` keeps every directory that is not on
the written path's extension. -/
theorem writeFileRaw_keeps_dir : ∀ (l : List Str) (t : FsTree) (c : List Nat)
    (q : List Str), (writeFileRaw t l c).1 = .ok () → segsPre l q = false →
    isDirAt t q = true → isDirAt (writeFileRaw t l c).2 q = true := by
  intro l
  induction l with
  | nil =>
    intro t c q hok _ hdir
    cases t with
    | dir cs => simp [writeFileRaw] at hok
    | file c0 =>
      exfalso
      cases q with
      | nil => simp [isDirAt, subAt] at hdir
      | cons a b => simp [isDirAt, subAt] at hdir
  | cons n rest ih =>
    intro t c q hok hl hdir
    cases t with
    | file c0 => simp [writeFileRaw] at hok
    | dir cs =>
      cases q with
      | nil =>
        cases rest with
        | nil =>
          cases hf : findChild cs n with
          | none => simp [writeFileRaw, hf, isDirAt, subAt]
          | some u =>
            cases u with
            | file c1 => simp [writeFileRaw, hf, isDirAt, subAt]
            | dir g => simp [writeFileRaw, hf] at hok
        | cons n2 rest2 =>
          cases hf : findChild cs n with
          | none => simp [writeFileRaw, hf] at hok
          | some t1 => simp [writeFileRaw, hf, isDirAt, subAt]
      | cons m qr =>
        cases rest with
        | nil =>
          have hmn : m ≠ n := by
            intro hh
            subst hh
            simp [segsPre] at hl
          cases hf : findChild cs n with
          | none =>
            have h1 : subAt (FsTree.dir (setChild cs n (.file c))) (m :: qr)
                = subAt (FsTree.dir cs) (m :: qr) := by
              simp only [subAt, findChild_set_ne cs n m _ hmn]
            simp only [writeFileRaw, hf, isDirAt, h1]
            simpa [isDirAt] using hdir
          | some u =>
            cases u with
            | dir g => simp [writeFileRaw, hf] at hok
            | file c1 =>
              have h1 : subAt (FsTree.dir (setChild cs n (.file c))) (m :: qr)
                  = subAt (FsTree.dir cs) (m :: qr) := by
                simp only [subAt, findChild_set_ne cs n m _ hmn]
              simp only [writeFileRaw, hf, isDirAt, h1]
              simpa [isDirAt] using hdir
        | cons n2 rest2 =>
          cases hf : findChild cs n with
          | none => simp [writeFileRaw, hf] at hok
          | some t1 =>
            simp only [writeFileRaw, hf] at hok ⊢
            by_cases hm : m = n
            · subst hm
              have hl2 : segsPre (n2 :: rest2) qr = false := by
                simpa [segsPre] using hl
              have hdir2 : isDirAt t1 qr = true := by
                simpa [isDirAt, subAt, hf] using hdir
              have := ih t1 c qr hok hl2 hdir2
              have h1 : subAt (FsTree.dir (setChild cs m
                    (writeFileRaw t1 (n2 :: rest2) c).2)) (m :: qr)
                  = subAt (writeFileRaw t1 (n2 :: rest2) c).2 qr := by
                simp only [subAt, findChild_set]
              simp only [isDirAt, h1]
              simpa [isDirAt] using this
            · have h1 : subAt (FsTree.dir (setChild cs n
                    (writeFileRaw t1 (n2 :: rest2) c).2)) (m :: qr)
                  = subAt (FsTree.dir cs) (m :: qr) := by
                simp only [subAt, findChild_set_ne cs n m _ hm]
              simp only [isDirAt, h1]
              simpa [isDirAt] using hdir

/-- C9: for a path that resolves within the root whose parent chain is
not blocked by a file and whose target is not an existing directory,
`writeFileTool` succeeds — creating every missing parent directory under
the root — and the file then holds the written content. -/
theorem writeFile_creates_missing_parents (rootDir : Str)
    (maps : List MapEntry) (p : Str) (c : List Nat) (t : FsTree)
    (resolved : Str)
    (hres : resolvePathWithinRoot rootDir maps p = .ok resolved)
    (hcan : canMkdir t (splitSegs (dirnameCanon resolved)) = true)
    (hnotdir : isDirAt t (splitSegs resolved) = false) :
    (writeFileTool rootDir maps p c t).1 = .ok { written := p } ∧
    fileAt (writeFileTool rootDir maps p c t).2 (splitSegs resolved) = some c ∧
    ∀ q, segsPre q (splitSegs (dirnameCanon resolved)) = true →
      isDirAt (writeFileTool rootDir maps p c t).2 q = true := by
  have hparent_eq : splitSegs (dirnameCanon resolved)
      = (splitSegs resolved).dropLast := dirnameCanon_segs resolved
  have hfull_ne : splitSegs resolved ≠ [] := by
    intro hemp
    rw [hparent_eq, hemp] at hcan
    rw [hemp] at hnotdir
    cases t with
    | file c0 => simp [canMkdir] at hcan
    | dir cs => simp [isDirAt, subAt] at hnotdir
  have hlen : (splitSegs (dirnameCanon resolved)).length
      < (splitSegs resolved).length := by
    rw [hparent_eq, List.length_dropLast]
    have : 0 < (splitSegs resolved).length := List.length_pos.mpr hfull_ne
    omega
  have hnp : segsPre (splitSegs resolved) (splitSegs (dirnameCanon resolved))
      = false := by
    cases hval : segsPre (splitSegs resolved) (splitSegs (dirnameCanon resolved)) with
    | false => rfl
    | true =>
      have := segsPre_length _ _ hval
      omega
  rcases hmkp : mkdirRec t (splitSegs (dirnameCanon resolved)) with ⟨r1, t1⟩
  have hr1 : r1 = .ok () := by
    have := canMkdir_ok (splitSegs (dirnameCanon resolved)) t hcan
    rw [hmkp] at this
    exact this
  subst hr1
  have hnd1 : isDirAt t1 (splitSegs resolved) = false := by
    have hfr := mkdirRec_frame (splitSegs (dirnameCanon resolved)) t
      (splitSegs resolved) hnp
    rw [hmkp] at hfr
    simp only [isDirAt, hfr]
    simpa [isDirAt] using hnotdir
  have hpard : isDirAt t1 (splitSegs resolved).dropLast = true := by
    have := mkdirRec_creates (splitSegs (dirnameCanon resolved)) t
      (splitSegs (dirnameCanon resolved)) (by rw [hmkp]) (segsPre_refl _)
    rw [hmkp] at this
    rwa [hparent_eq] at this
  have hwok := writeFileRaw_ok (splitSegs resolved) t1 c hfull_ne hpard hnd1
  rcases hwr : writeFileRaw t1 (splitSegs resolved) c with ⟨r2, t2⟩
  have hr2 : r2 = .ok () := by rw [hwr] at hwok; exact hwok
  subst hr2
  have hresult : writeFileTool rootDir maps p c t = (.ok { written := p }, t2) := by
    simp only [writeFileTool, hres, hmkp, hwr]
  refine ⟨by rw [hresult], ?_, ?_⟩
  · have := writeFileRaw_sets (splitSegs resolved) t1 c (by rw [hwr])
    rw [hwr] at this
    rw [hresult]
    simp only [fileAt, this]
  · intro q hq
    have hql : segsPre (splitSegs resolved) q = false := by
      cases hval : segsPre (splitSegs resolved) q with
      | false => rfl
      | true =>
        have h1 := segsPre_length _ _ hval
        have h2 := segsPre_length _ _ hq
        omega
    have hqdir : isDirAt t1 q = true := by
      have := mkdirRec_creates (splitSegs (dirnameCanon resolved)) t q
        (by rw [hmkp]) hq
      rwa [hmkp] at this
    have := writeFileRaw_keeps_dir (splitSegs resolved) t1 c q
      (by rw [hwr]) hql hqdir
    rw [hwr] at this
    rw [hresult]
    exact this

/-- Witness for C9: under root `/w` with no pre-existing directories,
writing `a/b/c.txt` succeeds, the file holds its content, and the
missing parent `a` has been created as a directory. -/
theorem writeFile_creates_missing_parents_witness :
    (writeFileTool (strL "/w") [] (strL "a/b/c.txt") [9] fsRootW).1 =
        .ok { written := strL "a/b/c.txt" } ∧
    fileAt (writeFileTool (strL "/w") [] (strL "a/b/c.txt") [9] fsRootW).2
        (splitSegs (strL "/w/a/b/c.txt")) = some [9] ∧
    isDirAt (writeFileTool (strL "/w") [] (strL "a/b/c.txt") [9] fsRootW).2
        [strL "w", strL "a"] = true := by
  have h := writeFile_creates_missing_parents (strL "/w") [] (strL "a/b/c.txt")
    [9] fsRootW (strL "/w/a/b/c.txt") (by decide) (by decide) (by decide)
  exact ⟨h.1, h.2.1, h.2.2 [strL "w", strL "a"] (by decide)⟩

/-! ## C6: `listFilesTool` lists every file and directory recursively -/

/-- A directory-entry name as the OS would allow it: non-empty, without
`/`, and not one of the special names `.` and `..`. -/
def nameOk (s : Str) : Bool :=
  decide (s ≠ [] ∧ s ≠ dotseg ∧ s ≠ dotdot ∧ ∀ ch ∈ s, ch ≠ '/')

mutual
/-- Every child name in the tree is an allowed directory-entry name. -/
def validT : FsTree → Bool
  | .file _ => true
  | .dir cs => validL cs

/-- `validT` over a child list. -/
def validL : List (Str × FsTree) → Bool
  | [] => true
  | (n, t) :: rest => nameOk n && validT t && validL rest
end

/-- Path lookup distributes over list append. -/
theorem subAt_append : ∀ (xs ys : List Str) (t : FsTree),
    subAt t (xs ++ ys) =
      match subAt t xs with
      | some u => subAt u ys
      | none => none := by
  intro xs
  induction xs with
  | nil => intro ys t; simp [subAt]
  | cons n rest ih =>
    intro ys t
    cases t with
    | file c => simp [subAt]
    | dir cs =>
      simp only [List.cons_append, subAt]
      cases findChild cs n with
      | none => rfl
      | some u => exact ih ys u

/-- Subtrees of a valid tree are valid. -/
theorem validT_subAt : ∀ (l : List Str) (t u : FsTree),
    validT t = true → subAt t l = some u → validT u = true := by
  intro l
  induction l with
  | nil =>
    intro t u hv hs
    simp only [subAt, Option.some_inj] at hs
    rwa [hs] at hv
  | cons n rest ih =>
    intro t u hv hs
    cases t with
    | file c => simp [subAt] at hs
    | dir cs =>
      simp only [subAt] at hs
      cases hf : findChild cs n with
      | none => rw [hf] at hs; simp at hs
      | some t1 =>
        rw [hf] at hs
        have hvt1 : validT t1 = true := by
          clear hs ih
          induction cs with
          | nil => simp [findChild] at hf
          | cons e rest2 ih2 =>
            obtain ⟨m, v⟩ := e
            simp only [validT, validL, Bool.and_eq_true] at hv
            by_cases hm : m = n
            · simp only [findChild, if_pos hm, Option.some_inj] at hf
              rw [← hf]
              exact hv.1.2
            · simp only [findChild, if_neg hm] at hf
              exact ih2 (by simp [validT]; exact hv.2) hf
        exact ih t1 u hvt1 hs

/-- A child found by name in a valid child list has an allowed name and
is itself valid. -/
theorem findChild_nameOk : ∀ (cs : List (Str × FsTree)) (n : Str) (t1 : FsTree),
    validL cs = true → findChild cs n = some t1 →
    nameOk n = true ∧ validT t1 = true := by
  intro cs
  induction cs with
  | nil => intro n t1 _ hf; simp [findChild] at hf
  | cons e rest ih =>
    intro n t1 hv hf
    obtain ⟨m, u⟩ := e
    simp only [validL, Bool.and_eq_true] at hv
    by_cases hm : m = n
    · simp only [findChild, if_pos hm, Option.some_inj] at hf
      subst hm
      exact ⟨hv.1.1, by rw [← hf]; exact hv.1.2⟩
    · simp only [findChild, if_neg hm] at hf
      exact ih n t1 hv.2 hf

/-- A string made only of non-slash characters does not end in a slash. -/
theorem endSlash_noSlash : ∀ s : Str, (∀ ch ∈ s, ch ≠ '/') →
    endSlash s = false := by
  intro s
  induction s with
  | nil => intro _; rfl
  | cons c rest ih =>
    intro h
    cases rest with
    | nil => simpa [endSlash] using h c (by simp)
    | cons c2 rest2 =>
      simp only [endSlash]
      exact ih (fun ch hch => h ch (by simp [hch]))

/-- `endSlash` only looks at the non-empty tail of an append. -/
theorem endSlash_append : ∀ (a b : Str), b ≠ [] →
    endSlash (a ++ b) = endSlash b := by
  intro a
  induction a with
  | nil => intro b _; rfl
  | cons c rest ih =>
    intro b hb
    have := ih b hb
    cases hr : rest ++ b with
    | nil =>
      exfalso
      rcases List.append_eq_nil.mp hr with ⟨_, h2⟩
      exact hb h2
    | cons x xs =>
      simp only [List.cons_append, endSlash, hr]
      rw [← hr, this]

/-- Joining allowed names never produces the empty string. -/
theorem interSlash_ne : ∀ l : List Str, l ≠ [] →
    (∀ x ∈ l, nameOk x = true) → interSlash l ≠ [] := by
  intro l hne h
  cases l with
  | nil => exact absurd rfl hne
  | cons x rest =>
    have hx : x ≠ [] := by
      have := h x (by simp)
      simp only [nameOk, decide_eq_true_eq] at this
      exact this.1
    cases rest with
    | nil => simpa [interSlash] using hx
    | cons y ys =>
      simp only [interSlash]
      intro hh
      rcases List.append_eq_nil.mp hh with ⟨_, h2⟩
      exact List.noConfusion h2

/-- Joining allowed names yields a relative path (no leading slash). -/
theorem interSlash_not_abs : ∀ l : List Str, (∀ x ∈ l, nameOk x = true) →
    isAbsoluteS (interSlash l) = false := by
  intro l h
  cases l with
  | nil => rfl
  | cons x rest =>
    have hx := h x (by simp)
    simp only [nameOk, decide_eq_true_eq] at hx
    cases hc : x with
    | nil => exact absurd hc hx.1
    | cons c cx =>
      have hcne : c ≠ '/' := by
        have := hx.2.2.2 c (by rw [hc]; simp)
        exact this
      cases rest with
      | nil => simp [interSlash, hc, isAbsoluteS, hcne]
      | cons y ys => simp [interSlash, hc, isAbsoluteS, hcne]

/-- Joining allowed names never ends in a slash. -/
theorem interSlash_endSlash : ∀ l : List Str, (∀ x ∈ l, nameOk x = true) →
    endSlash (interSlash l) = false := by
  intro l
  induction l with
  | nil => intro _; rfl
  | cons x rest ih =>
    intro h
    have hx := h x (by simp)
    simp only [nameOk, decide_eq_true_eq] at hx
    cases rest with
    | nil => exact endSlash_noSlash x hx.2.2.2
    | cons y ys =>
      have hrest : ∀ z ∈ y :: ys, nameOk z = true :=
        fun z hz => h z (by simp [hz])
      have hne : interSlash (y :: ys) ≠ [] :=
        interSlash_ne (y :: ys) (by simp) hrest
      simp only [interSlash]
      rw [endSlash_append x ('/' :: interSlash (y :: ys)) (by simp)]
      cases hr : interSlash (y :: ys) with
      | nil => exact absurd hr hne
      | cons z zs =>
        simp only [endSlash]
        rw [← hr]
        exact ih hrest

/-- Segments that are not `.` or `..` are pushed through normalization
untouched. -/
theorem normSegs_clean_aux : ∀ (l : List Str) (allowUp : Bool) (st : List Str),
    (∀ x ∈ l, x ≠ dotseg ∧ x ≠ dotdot) →
    l.foldl (normStep allowUp) st = l.reverse ++ st := by
  intro l
  induction l with
  | nil => intro allowUp st _; simp
  | cons x rest ih =>
    intro allowUp st h
    have hx := h x (by simp)
    simp only [List.foldl_cons, normStep, if_neg hx.1, if_neg hx.2]
    rw [ih allowUp (x :: st) (fun z hz => h z (by simp [hz]))]
    simp

/-- Normalizing a join of allowed names changes nothing. -/
theorem posixNormalize_clean (l : List Str) (hne : l ≠ [])
    (h : ∀ x ∈ l, nameOk x = true) :
    posixNormalize (interSlash l) = interSlash l := by
  have hnameprops : ∀ x ∈ l, x ≠ [] ∧ ∀ ch ∈ x, ch ≠ '/' := by
    intro x hx
    have := h x hx
    simp only [nameOk, decide_eq_true_eq] at this
    exact ⟨this.1, this.2.2.2⟩
  have hdots : ∀ x ∈ l, x ≠ dotseg ∧ x ≠ dotdot := by
    intro x hx
    have := h x hx
    simp only [nameOk, decide_eq_true_eq] at this
    exact ⟨this.2.1, this.2.2.1⟩
  have h1 : interSlash l ≠ [] := interSlash_ne l hne h
  have h2 : isAbsoluteS (interSlash l) = false := interSlash_not_abs l h
  have h3 : endSlash (interSlash l) = false := interSlash_endSlash l h
  have h4 : splitSegs (interSlash l) = l := splitSegs_inter l hnameprops
  have h5 : normSegs true l = l := by
    unfold normSegs
    rw [normSegs_clean_aux l true [] hdots]
    simp
  simp only [posixNormalize, if_neg h1, h2, h3, h4]
  simp only [Bool.not_false, h5, if_neg h1]
  simp

/-- Appending one segment to a non-empty join inserts one separator. -/
theorem interSlash_append_one : ∀ (l : List Str) (n : Str), l ≠ [] →
    interSlash l ++ '/' :: n = interSlash (l ++ [n]) := by
  intro l
  induction l with
  | nil => intro n h; exact absurd rfl h
  | cons x rest ih =>
    intro n _
    cases rest with
    | nil => simp [interSlash]
    | cons y ys =>
      have := ih n (by simp)
      simp only [interSlash, List.cons_append] at this ⊢
      simp [this]

/-- `path.join` of a clean relative base and an allowed name appends one
segment. -/
theorem posixJoin2_name (l : List Str) (n : Str)
    (h : ∀ x ∈ l, nameOk x = true) (hn : nameOk n = true) :
    posixJoin2 (interSlash l) n = interSlash (l ++ [n]) := by
  have hnprops := hn
  simp only [nameOk, decide_eq_true_eq] at hnprops
  cases l with
  | nil =>
    have h1 := posixNormalize_clean [n] (by simp) (by simpa using hn)
    simp only [interSlash] at h1
    simp only [interSlash, List.nil_append, posixJoin2]
    rw [if_neg (by simp [hnprops.1])]
    simp [h1]
  | cons x rest =>
    have hne : interSlash (x :: rest) ≠ [] :=
      interSlash_ne (x :: rest) (by simp) h
    have hall : ∀ z ∈ (x :: rest) ++ [n], nameOk z = true := by
      intro z hz
      rcases List.mem_append.mp hz with h1 | h2
      · exact h z h1
      · simp only [List.mem_singleton] at h2
        rw [h2]
        exact hn
    have hinter : interSlash (x :: rest) ++ '/' :: n
        = interSlash ((x :: rest) ++ [n]) :=
      interSlash_append_one (x :: rest) n (by simp)
    simp only [posixJoin2]
    rw [if_neg (by simp [hne]), if_neg hne, if_neg hnprops.1, hinter]
    exact posixNormalize_clean _ (by simp) hall

/-- The entry found by `findChild` is itself listed by the walk loop,
with a trailing slash exactly when it is a directory. -/
theorem walkL_entry : ∀ (cs : List (Str × FsTree)) (n : Str) (t1 : FsTree)
    (baseS : Str), findChild cs n = some t1 →
    (match t1 with
     | .dir _ => posixJoin2 baseS n ++ ['/']
     | .file _ => posixJoin2 baseS n) ∈ walkL cs baseS := by
  intro cs
  induction cs with
  | nil => intro n t1 baseS hf; simp [findChild] at hf
  | cons e rest ih =>
    intro n t1 baseS hf
    obtain ⟨m, u⟩ := e
    by_cases hm : m = n
    · subst hm
      simp [findChild] at hf
      subst hf
      cases u with
      | file c => simp [walkL]
      | dir g => simp [walkL]
    · simp only [findChild, if_neg hm] at hf
      have := ih n t1 baseS hf
      cases u with
      | file c => simp only [walkL, List.mem_append, List.mem_cons]; tauto
      | dir g => simp only [walkL, List.mem_append, List.mem_cons]; tauto

/-- Everything the walk of a child subtree lists is listed by the walk
of the parent's child list. -/
theorem walkL_sub : ∀ (cs : List (Str × FsTree)) (n : Str) (t1 : FsTree)
    (baseS : Str) (x : Str), findChild cs n = some t1 →
    x ∈ walkT t1 (posixJoin2 baseS n) → x ∈ walkL cs baseS := by
  intro cs
  induction cs with
  | nil => intro n t1 baseS x hf; simp [findChild] at hf
  | cons e rest ih =>
    intro n t1 baseS x hf hx
    obtain ⟨m, u⟩ := e
    by_cases hm : m = n
    · subst hm
      simp [findChild] at hf
      subst hf
      cases u with
      | file c => simp only [walkL, List.mem_append, List.mem_cons]; tauto
      | dir g => simp only [walkL, List.mem_append, List.mem_cons]; tauto
    · simp only [findChild, if_neg hm] at hf
      have := ih n t1 baseS x hf hx
      cases u with
      | file c => simp only [walkL, List.mem_append, List.mem_cons]; tauto
      | dir g => simp only [walkL, List.mem_append, List.mem_cons]; tauto

/-- Every node reachable in a valid tree appears in the recursive walk,
directories with a trailing slash, files as bare relative paths. -/
theorem walk_mem : ∀ (l : List Str) (t u : FsTree) (base : List Str),
    (∀ x ∈ base, nameOk x = true) → validT t = true →
    subAt t l = some u → l ≠ [] →
    (match u with
     | .dir _ => interSlash (base ++ l) ++ ['/']
     | .file _ => interSlash (base ++ l)) ∈ walkT t (interSlash base) := by
  intro l
  induction l with
  | nil => intro t u base _ _ _ hne; exact absurd rfl hne
  | cons n l2 ih =>
    intro t u base hbase hv hsub _
    cases t with
    | file c => simp [subAt] at hsub
    | dir cs =>
      simp only [subAt] at hsub
      cases hf : findChild cs n with
      | none => rw [hf] at hsub; simp at hsub
      | some t1 =>
        rw [hf] at hsub
        have hvl : validL cs = true := by simpa [validT] using hv
        obtain ⟨hn, hvt1⟩ := findChild_nameOk cs n t1 hvl hf
        have hrel : posixJoin2 (interSlash base) n = interSlash (base ++ [n]) :=
          posixJoin2_name base n hbase hn
        cases l2 with
        | nil =>
          simp only [subAt, Option.some_inj] at hsub
          have hw := walkL_entry cs n t1 (interSlash base) hf
          rw [hrel] at hw
          rw [← hsub]
          simpa [walkT] using hw
        | cons n2 l3 =>
          have hbase2 : ∀ x ∈ base ++ [n], nameOk x = true := by
            intro x hx
            rcases List.mem_append.mp hx with h1 | h2
            · exact hbase x h1
            · simp only [List.mem_singleton] at h2
              rw [h2]
              exact hn
          have hrec := ih t1 u (base ++ [n]) hbase2 hvt1 hsub (by simp)
          have hassoc : (base ++ [n]) ++ (n2 :: l3) = base ++ (n :: n2 :: l3) := by
            simp
          rw [hassoc] at hrec
          rw [← hrel] at hrec
          have hfinal := walkL_sub cs n t1 (interSlash base) _ hf hrec
          simpa [walkT] using hfinal

/-- C6: when `listFilesTool` succeeds on a directory (defaulting to the
workspace root), its result lists every directory reachable under it as
a relative path with a trailing `/` and every file as a bare relative
path. -/
theorem listFiles_lists_every_entry (rootDir : Str) (maps : List MapEntry)
    (op : Option Str) (t t' : FsTree) (res : ListResult) (rd : Str)
    (hres : resolvePathWithinRoot rootDir maps (op.getD dotseg) = .ok rd)
    (hrun : listFilesTool rootDir maps op t = (.ok res, t'))
    (hvalid : validT t = true) :
    ∀ (l : List Str) (u : FsTree), l ≠ [] →
      subAt t (splitSegs rd ++ l) = some u →
      (match u with
       | .dir _ => interSlash l ++ ['/']
       | .file _ => interSlash l) ∈ res.files := by
  intro l u hne hsub
  simp only [listFilesTool, hres] at hrun
  cases hroot : subAt t (splitSegs rd) with
  | none => rw [hroot] at hrun; simp at hrun
  | some sub =>
    rw [hroot] at hrun
    cases sub with
    | file c => simp at hrun
    | dir cs =>
      simp only [Prod.mk.injEq] at hrun
      have hfiles : res.files = walkL cs [] := by
        have h1 := hrun.1
        have h2 := Except.ok.inj h1
        rw [← h2]
      have hv1 : validT (FsTree.dir cs) = true :=
        validT_subAt (splitSegs rd) t _ hvalid hroot
      have hsub2 : subAt (FsTree.dir cs) l = some u := by
        rw [subAt_append, hroot] at hsub
        exact hsub
      have := walk_mem l (FsTree.dir cs) u [] (by simp) hv1 hsub2 hne
      simp only [List.nil_append] at this
      rw [hfiles]
      simpa [walkT, interSlash] using this

/-- A populated sandbox: `/w` containing directory `a` with file
`a/f.txt` and file `g.txt`. -/
def fsListW : FsTree :=
  .dir [(strL "w", .dir [(strL "a", .dir [(strL "f.txt", .file [1])]),
                         (strL "g.txt", .file [2])])]

/-- Witness for C6 at a concrete tree: listing the workspace root
(default path) yields `["a/", "a/f.txt", "g.txt"]`, and the nested file
`a/f.txt` is listed as the bare relative path `a/f.txt`. -/
theorem listFiles_lists_every_entry_witness :
    interSlash [strL "a", strL "f.txt"] ∈
      ({ files := [strL "a/", strL "a/f.txt", strL "g.txt"] } : ListResult).files :=
  listFiles_lists_every_entry (strL "/w") [] none fsListW fsListW
    { files := [strL "a/", strL "a/f.txt", strL "g.txt"] } (strL "/w")
    (by decide) rfl (by decide) [strL "a", strL "f.txt"] (.file [1])
    (by decide) rfl

/-! ## C7: the result lists of `createFileStructureTool` -/

/-- `mkdirSync` (even a failing one) never changes any file's content:
it only adds directory nodes. -/
theorem mkdirRec_keeps_files : ∀ (l : List Str) (t : FsTree) (q : List Str),
    fileAt (mkdirRec t l).2 q = fileAt t q := by
  intro l
  induction l with
  | nil =>
    intro t q
    cases t with
    | file c => rfl
    | dir cs => rfl
  | cons n rest ih =>
    intro t q
    cases t with
    | file c => rfl
    | dir cs =>
      cases q with
      | nil =>
        cases hf : findChild cs n with
        | some u => simp [mkdirRec, hf, fileAt, subAt]
        | none => simp [mkdirRec, hf, fileAt, subAt]
      | cons m qr =>
        cases hf : findChild cs n with
        | some u =>
          simp only [mkdirRec, hf]
          by_cases hm : m = n
          · subst hm
            have h1 : subAt (FsTree.dir (setChild cs m (mkdirRec u rest).2)) (m :: qr)
                = subAt (mkdirRec u rest).2 qr := by
              simp only [subAt, findChild_set]
            have h2 : subAt (FsTree.dir cs) (m :: qr) = subAt u qr := by
              simp only [subAt, hf]
            simp only [fileAt, h1, h2]
            have := ih u qr
            simpa [fileAt] using this
          · have h1 : subAt (FsTree.dir (setChild cs n (mkdirRec u rest).2)) (m :: qr)
                = subAt (FsTree.dir cs) (m :: qr) := by
              simp only [subAt, findChild_set_ne cs n m _ hm]
            simp only [fileAt, h1]
        | none =>
          simp only [mkdirRec, hf]
          by_cases hm : m = n
          · subst hm
            have hfind : findChild (cs ++ [(m, (mkdirRec (FsTree.dir []) rest).2)]) m
                = some (mkdirRec (FsTree.dir []) rest).2 := by
              rw [findChild_append, hf]
              simp [findChild]
            have h1 : subAt (FsTree.dir (cs ++ [(m, (mkdirRec (FsTree.dir []) rest).2)]))
                  (m :: qr)
                = subAt (mkdirRec (FsTree.dir []) rest).2 qr := by
              simp only [subAt, hfind]
            have h2 : subAt (FsTree.dir cs) (m :: qr) = none := by
              simp only [subAt, hf]
            have h3 := ih (FsTree.dir []) qr
            have h4 : fileAt (FsTree.dir []) qr = none := by
              cases qr with
              | nil => rfl
              | cons a b => simp [fileAt, subAt, findChild]
            simp only [fileAt, h1, h2] at h3 h4 ⊢
            rw [h3, h4]
          · have hfind : findChild (cs ++ [(n, (mkdirRec (FsTree.dir []) rest).2)]) m
                = findChild cs m := by
              rw [findChild_append]
              cases hg : findChild cs m with
              | some v => rfl
              | none => simp [findChild, Ne.symm hm]
            have h1 : subAt (FsTree.dir (cs ++ [(n, (mkdirRec (FsTree.dir []) rest).2)]))
                  (m :: qr)
                = subAt (FsTree.dir cs) (m :: qr) := by
              simp only [subAt, hfind]
            simp only [fileAt, h1]

/-- A successful `writeFileSync` at `l` leaves the content of every
other path untouched. -/
theorem writeFileRaw_keeps_file : ∀ (l : List Str) (t : FsTree) (c : List Nat)
    (q : List Str), (writeFileRaw t l c).1 = .ok () → q ≠ l →
    fileAt (writeFileRaw t l c).2 q = fileAt t q := by
  intro l
  induction l with
  | nil =>
    intro t c q hok hq
    cases t with
    | dir cs => simp [writeFileRaw] at hok
    | file c0 =>
      cases q with
      | nil => exact absurd rfl hq
      | cons a b => simp [writeFileRaw, fileAt, subAt]
  | cons n rest ih =>
    intro t c q hok hq
    cases t with
    | file c0 => simp [writeFileRaw] at hok
    | dir cs =>
      cases rest with
      | nil =>
        cases q with
        | nil =>
          cases hf : findChild cs n with
          | none => simp [writeFileRaw, hf, fileAt, subAt]
          | some u =>
            cases u with
            | dir g => simp [writeFileRaw, hf] at hok
            | file c1 => simp [writeFileRaw, hf, fileAt, subAt]
        | cons m qr =>
          by_cases hm : m = n
          · subst hm
            have hqr : qr ≠ [] := by
              intro hh
              rw [hh] at hq
              exact hq rfl
            cases hf : findChild cs m with
            | none =>
              have h1 : subAt (FsTree.dir (setChild cs m (.file c))) (m :: qr)
                  = subAt (FsTree.file c) qr := by
                simp only [subAt, findChild_set]
              have h2 : subAt (FsTree.dir cs) (m :: qr) = none := by
                simp only [subAt, hf]
              cases qr with
              | nil => exact absurd rfl hqr
              | cons a b => simp [writeFileRaw, hf, fileAt, h1, h2, subAt]
            | some u =>
              cases u with
              | dir g => simp [writeFileRaw, hf] at hok
              | file c1 =>
                have h1 : subAt (FsTree.dir (setChild cs m (.file c))) (m :: qr)
                    = subAt (FsTree.file c) qr := by
                  simp only [subAt, findChild_set]
                have h2 : subAt (FsTree.dir cs) (m :: qr) = subAt (FsTree.file c1) qr := by
                  simp only [subAt, hf]
                cases qr with
                | nil => exact absurd rfl hqr
                | cons a b => simp [writeFileRaw, hf, fileAt, h1, h2, subAt]
          · cases hf : findChild cs n with
            | none =>
              have h1 : subAt (FsTree.dir (setChild cs n (.file c))) (m :: qr)
                  = subAt (FsTree.dir cs) (m :: qr) := by
                simp only [subAt, findChild_set_ne cs n m _ hm]
              simp [writeFileRaw, hf, fileAt, h1]
            | some u =>
              cases u with
              | dir g => simp [writeFileRaw, hf] at hok
              | file c1 =>
                have h1 : subAt (FsTree.dir (setChild cs n (.file c))) (m :: qr)
                    = subAt (FsTree.dir cs) (m :: qr) := by
                  simp only [subAt, findChild_set_ne cs n m _ hm]
                simp [writeFileRaw, hf, fileAt, h1]
      | cons n2 rest2 =>
        cases hf : findChild cs n with
        | none => simp [writeFileRaw, hf] at hok
        | some t1 =>
          simp only [writeFileRaw, hf] at hok ⊢
          cases q with
          | nil => simp [fileAt, subAt]
          | cons m qr =>
            by_cases hm : m = n
            · subst hm
              have hqr : qr ≠ n2 :: rest2 := by
                intro hh
                rw [hh] at hq
                exact hq rfl
              have h1 : subAt (FsTree.dir (setChild cs m
                    (writeFileRaw t1 (n2 :: rest2) c).2)) (m :: qr)
                  = subAt (writeFileRaw t1 (n2 :: rest2) c).2 qr := by
                simp only [subAt, findChild_set]
              have h2 : subAt (FsTree.dir cs) (m :: qr) = subAt t1 qr := by
                simp only [subAt, hf]
              have := ih t1 c qr hok hqr
              simp only [fileAt, h1, h2] at this ⊢
              exact this
            · have h1 : subAt (FsTree.dir (setChild cs n
                    (writeFileRaw t1 (n2 :: rest2) c).2)) (m :: qr)
                  = subAt (FsTree.dir cs) (m :: qr) := by
                simp only [subAt, findChild_set_ne cs n m _ hm]
              simp only [fileAt, h1]

/-- `ensureDir` never changes any file's content. -/
theorem ensureDir_keeps_files (rootDir : Str) (maps : List MapEntry)
    (t : FsTree) (cd : List Str) (d : Str) (q : List Str) :
    fileAt (ensureDir rootDir maps t cd d).2.1 q = fileAt t q := by
  simp only [ensureDir]
  cases resolvePathWithinRoot rootDir maps d with
  | error e => rfl
  | ok absDir =>
    simp only
    by_cases hex : existsAt t (splitSegs absDir)
    · simp [hex]
    · simp only [hex, if_false, Bool.false_eq_true]
      rcases hmk : mkdirRec t (splitSegs absDir) with ⟨r1, t1⟩
      have := mkdirRec_keeps_files (splitSegs absDir) t q
      rw [hmk] at this
      cases r1 with
      | ok u => simpa using this
      | error e => simpa using this

/-- Every entry `ensureDir` adds to the created-directories list carries
a trailing slash. -/
theorem ensureDir_dirs (rootDir : Str) (maps : List MapEntry) (t : FsTree)
    (cd : List Str) (d : Str) :
    ∀ x ∈ (ensureDir rootDir maps t cd d).2.2, x ∈ cd ∨ endSlash x = true := by
  intro x hx
  have hslash : endSlash (dirSlash d) = true := by
    unfold dirSlash
    by_cases he : endSlash d
    · simp [he]
    · simp only [he, if_false, Bool.false_eq_true]
      rw [endSlash_append d ['/'] (by simp)]
      rfl
  simp only [ensureDir] at hx
  split at hx
  · exact Or.inl hx
  · split at hx
    · exact Or.inl hx
    · split at hx
      · simp only [List.mem_append, List.mem_singleton] at hx
        rcases hx with h1 | h2
        · exact Or.inl h1
        · rw [h2]
          exact Or.inr hslash
      · exact Or.inl hx

/-- All directory entries recorded by the dirs loop carry a trailing
slash (relative to what was already recorded). -/
theorem procDirs_dirs (rootDir : Str) (maps : List MapEntry) :
    ∀ (ds : List Str) (t : FsTree) (cd : List Str),
    ∀ x ∈ (procDirs rootDir maps ds t cd).2.2, x ∈ cd ∨ endSlash x = true := by
  intro ds
  induction ds with
  | nil => intro t cd x hx; exact Or.inl hx
  | cons d rest ih =>
    intro t cd x hx
    simp only [procDirs] at hx
    rcases hE : ensureDir rootDir maps t cd d with ⟨r1, t1, cd1⟩
    rw [hE] at hx
    cases r1 with
    | error e =>
      have := ensureDir_dirs rootDir maps t cd d x
      rw [hE] at this
      exact this hx
    | ok u =>
      rcases ih t1 cd1 x hx with h1 | h2
      · have := ensureDir_dirs rootDir maps t cd d x
        rw [hE] at this
        exact this h1
      · exact Or.inr h2

/-- Same for the directory entries recorded while processing files. -/
theorem procFiles_dirs (rootDir : Str) (maps : List MapEntry) :
    ∀ (fs : List FileSpec) (t : FsTree) (cd : List Str)
      (gf : List (Str × Option Str)),
    ∀ x ∈ (procFiles rootDir maps fs t cd gf).2.2.1,
      x ∈ cd ∨ endSlash x = true := by
  intro fs
  induction fs with
  | nil => intro t cd gf x hx; exact Or.inl hx
  | cons f rest ih =>
    intro t cd gf x hx
    simp only [procFiles] at hx
    split at hx
    · exact Or.inl hx
    · rename_i filePath hR
      split at hx
      · rename_i e t1 cd1 hE
        have := ensureDir_dirs rootDir maps t cd
          (pathRelative rootDir (dirnameCanon filePath)) x
        rw [hE] at this
        exact this hx
      · rename_i t1 cd1 hE
        split at hx
        · rename_i t2 hW
          rcases ih t2 cd1 (gf ++ [(f.path, f.descr)]) x hx with h1 | h2
          · have := ensureDir_dirs rootDir maps t cd
              (pathRelative rootDir (dirnameCanon filePath)) x
            rw [hE] at this
            exact this h1
          · exact Or.inr h2
        · rename_i e t2 hW
          have := ensureDir_dirs rootDir maps t cd
            (pathRelative rootDir (dirnameCanon filePath)) x
          rw [hE] at this
          exact this hx

/-- A successful file loop records exactly the request's `(path,
description)` pairs, in order, after whatever was already recorded. -/
theorem procFiles_files (rootDir : Str) (maps : List MapEntry) :
    ∀ (fs : List FileSpec) (t : FsTree) (cd : List Str)
      (gf : List (Str × Option Str)) (t2 : FsTree) (cd2 : List Str)
      (gf2 : List (Str × Option Str)),
    procFiles rootDir maps fs t cd gf = (.ok (), t2, cd2, gf2) →
    gf2 = gf ++ fs.map (fun f => (f.path, f.descr)) := by
  intro fs
  induction fs with
  | nil =>
    intro t cd gf t2 cd2 gf2 h
    simp only [procFiles, Prod.mk.injEq] at h
    simp [← h.2.2.2]
  | cons f rest ih =>
    intro t cd gf t2 cd2 gf2 h
    simp only [procFiles] at h
    split at h
    · simp at h
    · rename_i filePath hR
      split at h
      · simp at h
      · rename_i t1 cd1 hE
        split at h
        · rename_i t1' hW
          have := ih t1' cd1 (gf ++ [(f.path, f.descr)]) t2 cd2 gf2 h
          simp [this]
        · simp at h

/-- A successful file loop leaves the content of any path that none of
its files resolves to unchanged. -/
theorem procFiles_keeps (rootDir : Str) (maps : List MapEntry) :
    ∀ (fs : List FileSpec) (t : FsTree) (cd : List Str)
      (gf : List (Str × Option Str)) (t2 : FsTree) (cd2 : List Str)
      (gf2 : List (Str × Option Str)) (q : List Str),
    procFiles rootDir maps fs t cd gf = (.ok (), t2, cd2, gf2) →
    (∀ f ∈ fs, ∀ rf, resolvePathWithinRoot rootDir maps f.path = .ok rf →
      splitSegs rf ≠ q) →
    fileAt t2 q = fileAt t q := by
  intro fs
  induction fs with
  | nil =>
    intro t cd gf t2 cd2 gf2 q h _
    simp only [procFiles, Prod.mk.injEq] at h
    rw [← h.2.1]
  | cons f rest ih =>
    intro t cd gf t2 cd2 gf2 q h hq
    simp only [procFiles] at h
    split at h
    · simp at h
    · rename_i filePath hR
      split at h
      · simp at h
      · rename_i t1 cd1 hE
        split at h
        · rename_i t1' hW
          have hstep1 : fileAt t2 q = fileAt t1' q :=
            ih t1' cd1 (gf ++ [(f.path, f.descr)]) t2 cd2 gf2 q h
              (fun g hg => hq g (by simp [hg]))
          have hqf : q ≠ splitSegs filePath :=
            Ne.symm (hq f (by simp) filePath hR)
          have hstep2 : fileAt t1' q = fileAt t1 q := by
            have := writeFileRaw_keeps_file (splitSegs filePath) t1 f.content q
              (by rw [hW]) hqf
            rw [hW] at this
            exact this
          have hstep3 : fileAt t1 q = fileAt t q := by
            have := ensureDir_keeps_files rootDir maps t cd
              (pathRelative rootDir (dirnameCanon filePath)) q
            rw [hE] at this
            exact this
          rw [hstep1, hstep2, hstep3]
        · simp at h

/-- After a successful file loop with pairwise-distinct resolved paths,
every processed file holds its requested content. -/
theorem procFiles_content (rootDir : Str) (maps : List MapEntry) :
    ∀ (fs : List FileSpec) (t : FsTree) (cd : List Str)
      (gf : List (Str × Option Str)) (t2 : FsTree) (cd2 : List Str)
      (gf2 : List (Str × Option Str)),
    procFiles rootDir maps fs t cd gf = (.ok (), t2, cd2, gf2) →
    fs.Pairwise (fun f g => ∀ rf rg,
      resolvePathWithinRoot rootDir maps f.path = .ok rf →
      resolvePathWithinRoot rootDir maps g.path = .ok rg →
      splitSegs rf ≠ splitSegs rg) →
    ∀ f ∈ fs, ∀ rf, resolvePathWithinRoot rootDir maps f.path = .ok rf →
      fileAt t2 (splitSegs rf) = some f.content := by
  intro fs
  induction fs with
  | nil => intro t cd gf t2 cd2 gf2 _ _ f hf; simp at hf
  | cons f rest ih =>
    intro t cd gf t2 cd2 gf2 h hp g hg rg hrg
    obtain ⟨hrel, hprest⟩ := List.pairwise_cons.mp hp
    simp only [procFiles] at h
    split at h
    · simp at h
    · rename_i filePath hR
      split at h
      · simp at h
      · rename_i t1 cd1 hE
        split at h
        · rename_i t1' hW
          rcases List.mem_cons.mp hg with hgf | hgrest
          · subst hgf
            have hrge : rg = filePath := by
              rw [hrg] at hR
              exact Except.ok.inj hR
            subst hrge
            have hkeep : fileAt t2 (splitSegs rg) = fileAt t1' (splitSegs rg) :=
              procFiles_keeps rootDir maps rest t1' cd1
                (gf ++ [(g.path, g.descr)]) t2 cd2 gf2 (splitSegs rg) h
                (fun g2 hg2 rg2 hrg2 =>
                  Ne.symm (hrel g2 hg2 rg rg2 hrg hrg2))
            have hset : fileAt t1' (splitSegs rg) = some g.content := by
              have := writeFileRaw_sets (splitSegs rg) t1 g.content (by rw [hW])
              rw [hW] at this
              simp [fileAt, this]
            rw [hkeep, hset]
          · exact ih t1' cd1 (gf ++ [(f.path, f.descr)]) t2 cd2 gf2 h hprest
              g hgrest rg hrg
        · simp at h

/-- C7 counterexample: the claim states that the result's `dirs` list
contains exactly the directories the operation created.  Creating the
single file `a/b/c.txt` under root `/w` creates the directories `/w/a`
and `/w/a/b` on disk, but the result lists only `a/b/`: the ancestor
`a/` is created yet unlisted. -/
theorem createFileStructure_dirs_list_omits_created :
    (createFileStructureTool (strL "/w") []
        { files := [{ path := strL "a/b/c.txt", content := [104], descr := none }],
          dirs := [], dependencies := [] } fsRootW).1.map CreateResult.dirs
      = .ok [strL "a/b/"] ∧
    isDirAt (createFileStructureTool (strL "/w") []
        { files := [{ path := strL "a/b/c.txt", content := [104], descr := none }],
          dirs := [], dependencies := [] } fsRootW).2 [strL "w", strL "a"]
      = true := by decide

/-- C7 (amended): a successful `createFileStructureTool` returns the
requested file paths (with their descriptions) exactly and in request
order; every recorded directory entry carries a trailing `/` (though
implicitly created ancestor directories are not recorded); and when the
requested files' resolved paths are pairwise distinct, every requested
file afterwards holds its requested content at its resolved path. -/
theorem createFileStructure_result (rootDir : Str) (maps : List MapEntry)
    (s : StructureSpec) (t t2 : FsTree) (res : CreateResult)
    (hrun : createFileStructureTool rootDir maps s t = (.ok res, t2)) :
    res.files = s.files.map (fun f => (f.path, f.descr)) ∧
    (∀ d ∈ res.dirs, endSlash d = true) ∧
    (s.files.Pairwise (fun f g => ∀ rf rg,
        resolvePathWithinRoot rootDir maps f.path = .ok rf →
        resolvePathWithinRoot rootDir maps g.path = .ok rg →
        splitSegs rf ≠ splitSegs rg) →
      ∀ f ∈ s.files, ∀ rf,
        resolvePathWithinRoot rootDir maps f.path = .ok rf →
        fileAt t2 (splitSegs rf) = some f.content) := by
  simp only [createFileStructureTool] at hrun
  split at hrun
  · simp at hrun
  · rename_i t1 cd1 hdirs
    split at hrun
    · simp at hrun
    · rename_i t2' cd2 gf hfiles
      simp only [Prod.mk.injEq] at hrun
      have hok := Except.ok.inj hrun.1
      have ht : t2' = t2 := hrun.2
      refine ⟨?_, ?_, ?_⟩
      · rw [← hok]
        have := procFiles_files rootDir maps s.files t1 cd1 [] t2' cd2 gf hfiles
        simpa using this
      · intro d hd
        rw [← hok] at hd
        have h1 := procFiles_dirs rootDir maps s.files t1 cd1 [] d
        rw [hfiles] at h1
        rcases h1 hd with h2 | h3
        · have h4 := procDirs_dirs rootDir maps s.dirs t [] d
          rw [hdirs] at h4
          rcases h4 h2 with h5 | h6
          · simp at h5
          · exact h6
        · exact h3
      · intro hp f hf rf hrf
        rw [← ht]
        exact procFiles_content rootDir maps s.files t1 cd1 [] t2' cd2 gf
          hfiles hp f hf rf hrf

/-- The request used to witness C7. -/
def c7req : StructureSpec :=
  { files := [{ path := strL "x/a.txt", content := [1], descr := none },
              { path := strL "b.txt", content := [2], descr := none }],
    dirs := [strL "d"], dependencies := [] }

/-- The result C7's witness request produces. -/
def c7res : CreateResult :=
  { files := [(strL "x/a.txt", none), (strL "b.txt", none)],
    dirs := [strL "d/", strL "x/"],
    summary := mkSummary [strL "d/", strL "x/"]
      [(strL "x/a.txt", none), (strL "b.txt", none)],
    dependencies := [] }

/-- Witness for the amended C7 at a concrete request with two files and
one explicit directory: the files list is exact, the recorded directory
entry ends with a slash, and the first file holds its content. -/
theorem createFileStructure_result_witness :
    c7res.files = c7req.files.map (fun f => (f.path, f.descr)) ∧
    endSlash (strL "d/") = true ∧
    fileAt (createFileStructureTool (strL "/w") [] c7req fsRootW).2
      (splitSegs (strL "/w/x/a.txt")) = some [1] := by
  have h := createFileStructure_result (strL "/w") [] c7req fsRootW
    (createFileStructureTool (strL "/w") [] c7req fsRootW).2 c7res rfl
  refine ⟨h.1, h.2.1 (strL "d/") (by decide), ?_⟩
  refine h.2.2 ?_ { path := strL "x/a.txt", content := [1], descr := none }
    (by decide) (strL "/w/x/a.txt") rfl
  refine List.Pairwise.cons ?_ (List.Pairwise.cons (by simp) List.Pairwise.nil)
  intro g hg rf rg hrf hrg
  simp only [List.mem_singleton] at hg
  subst hg
  have h1 : Except.ok (strL "/w/x/a.txt") = Except.ok rf := hrf
  have h2 : Except.ok (strL "/w/b.txt") = Except.ok rg := hrg
  rw [← Except.ok.inj h1, ← Except.ok.inj h2]
  decide

/-! ## C8: the two branches of `resolvePathWithinRoot` -/

/-- The canonical segments `path.resolve` produces for a path. -/
def canonSegs (p : Str) : List Str := normSegs false (splitSegs p)

/-- Splitting distributes over an explicit separator. -/
theorem splitAux_append : ∀ (x y : Str) (cur : Str),
    splitAux (x ++ '/' :: y) cur = splitAux x cur ++ splitAux y [] := by
  intro x
  induction x with
  | nil => intro y cur; simp [splitAux]
  | cons c xs ih =>
    intro y cur
    by_cases hc : c = '/'
    · subst hc
      simp only [List.cons_append, splitAux, if_true, List.append_eq]
      rw [ih y []]
    · simp only [List.cons_append, splitAux, if_neg hc]
      exact ih y (c :: cur)

/-- `splitSegs` distributes over an explicit separator. -/
theorem splitSegs_append (x y : Str) :
    splitSegs (x ++ '/' :: y) = splitSegs x ++ splitSegs y := by
  simp only [splitSegs]
  rw [splitAux_append x y [], List.filter_append]

/-- Members of the normalization stack: everything comes from the input
and is neither `.` nor `..` (for `allowAboveRoot = false`). -/
theorem normSegs_mem : ∀ (segs : List Str) (st : List Str),
    (∀ x ∈ st, x ≠ dotseg ∧ x ≠ dotdot) →
    ∀ x ∈ segs.foldl (normStep false) st,
      (x ∈ st ∨ x ∈ segs) ∧ x ≠ dotseg ∧ x ≠ dotdot := by
  intro segs
  induction segs with
  | nil =>
    intro st hst x hx
    simp only [List.foldl_nil] at hx
    exact ⟨Or.inl hx, hst x hx⟩
  | cons s rest ih =>
    intro st hst x hx
    simp only [List.foldl_cons] at hx
    by_cases hdot : s = dotseg
    · have hst2 : normStep false st s = st := by simp [normStep, hdot]
      rw [hst2] at hx
      have := ih st hst x hx
      refine ⟨?_, this.2⟩
      rcases this.1 with h1 | h2
      · exact Or.inl h1
      · exact Or.inr (by simp [h2])
    · by_cases hdd : s = dotdot
      · have hsub : ∀ z ∈ normStep false st s, z ∈ st := by
          intro z hz
          simp only [normStep, if_neg hdot, if_pos hdd] at hz
          cases st with
          | nil => simp at hz
          | cons a st2 =>
            have ha : a ≠ dotdot := (hst a (by simp)).2
            simp only [if_neg ha] at hz
            exact List.mem_cons_of_mem a hz
        have hst2 : ∀ z ∈ normStep false st s, z ≠ dotseg ∧ z ≠ dotdot :=
          fun z hz => hst z (hsub z hz)
        have := ih (normStep false st s) hst2 x hx
        refine ⟨?_, this.2⟩
        rcases this.1 with h1 | h2
        · exact Or.inl (hsub x h1)
        · exact Or.inr (by simp [h2])
      · have hst2 : normStep false st s = s :: st := by
          simp [normStep, hdot, hdd]
        rw [hst2] at hx
        have hmem : ∀ z ∈ s :: st, z ≠ dotseg ∧ z ≠ dotdot := by
          intro z hz
          rcases List.mem_cons.mp hz with h1 | h2
          · rw [h1]; exact ⟨hdot, hdd⟩
          · exact hst z h2
        have := ih (s :: st) hmem x hx
        refine ⟨?_, this.2⟩
        rcases this.1 with h1 | h2
        · rcases List.mem_cons.mp h1 with h3 | h4
          · exact Or.inr (by simp [h3])
          · exact Or.inl h4
        · exact Or.inr (by simp [h2])

/-- Canonical segments are non-empty, slash-free and free of `.`/`..`. -/
theorem canonSegs_props (p : Str) : ∀ x ∈ canonSegs p,
    x ≠ [] ∧ (∀ ch ∈ x, ch ≠ '/') ∧ x ≠ dotseg ∧ x ≠ dotdot := by
  intro x hx
  simp only [canonSegs, normSegs] at hx
  rw [List.mem_reverse] at hx
  have h1 := normSegs_mem (splitSegs p) [] (by simp) x hx
  rcases h1.1 with h2 | h3
  · simp at h2
  · have := splitSegs_noSlash p x h3
    exact ⟨this.1, this.2, h1.2⟩

/-- Normalization leaves clean segment lists unchanged. -/
theorem normSegs_clean (allowUp : Bool) (l : List Str)
    (h : ∀ x ∈ l, x ≠ dotseg ∧ x ≠ dotdot) : normSegs allowUp l = l := by
  unfold normSegs
  rw [normSegs_clean_aux l allowUp [] h]
  simp

/-- Splitting the canonical form recovers the canonical segments. -/
theorem splitSegs_resolveAbs1 (p : Str) :
    splitSegs (resolveAbs1 p) = canonSegs p := by
  unfold resolveAbs1
  rw [splitSegs_slashCons]
  exact splitSegs_inter _ (fun x hx =>
    ⟨(canonSegs_props p x hx).1, (canonSegs_props p x hx).2.1⟩)

/-- `path.resolve` is idempotent. -/
theorem resolveAbs1_idem (p : Str) :
    resolveAbs1 (resolveAbs1 p) = resolveAbs1 p := by
  have h1 : canonSegs (resolveAbs1 p) = canonSegs p := by
    unfold canonSegs
    rw [splitSegs_resolveAbs1]
    exact normSegs_clean false _ (fun x hx => (canonSegs_props p x hx).2.2)
  show '/' :: interSlash (normSegs false (splitSegs (resolveAbs1 p)))
      = resolveAbs1 p
  have : normSegs false (splitSegs (resolveAbs1 p)) = canonSegs p := h1
  rw [this]
  rfl

/-- Each `..` pops one clean segment off the normalization stack. -/
theorem normStep_pops : ∀ (ys st : List Str), (∀ y ∈ ys, y ≠ dotdot) →
    (List.replicate ys.length dotdot).foldl (normStep false) (ys ++ st) = st := by
  intro ys
  induction ys with
  | nil => intro st _; simp
  | cons y ys2 ih =>
    intro st h
    have hy : y ≠ dotdot := h y (by simp)
    simp only [List.length_cons, List.replicate_succ, List.foldl_cons]
    have hstep : normStep false ((y :: ys2) ++ st) dotdot = ys2 ++ st := by
      have hds : dotdot ≠ dotseg := by decide
      simp [normStep, hy, hds]
    rw [hstep]
    exact ih st (fun z hz => h z (by simp [hz]))

/-- `dropCommon` decomposes its arguments into a shared part and the two
remainders. -/
theorem dropCommon_spec : ∀ (xs ys : List Str), ∃ c : List Str,
    xs = c ++ (dropCommon xs ys).1 ∧ ys = c ++ (dropCommon xs ys).2 := by
  intro xs
  induction xs with
  | nil => intro ys; exact ⟨[], by simp [dropCommon], by cases ys <;> simp [dropCommon]⟩
  | cons a as ih =>
    intro ys
    cases ys with
    | nil => exact ⟨[], by simp [dropCommon], by simp [dropCommon]⟩
    | cons b bs =>
      by_cases hab : a = b
      · obtain ⟨c, h1, h2⟩ := ih bs
        refine ⟨a :: c, ?_, ?_⟩
        · simp only [dropCommon, if_pos hab]
          simpa using h1
        · simp only [dropCommon, if_pos hab]
          rw [hab]
          simpa using h2
      · exact ⟨[], by simp [dropCommon, hab], by simp [dropCommon, hab]⟩

/-- Joining non-empty slash-free segments yields a relative string. -/
theorem interSlash_not_absW : ∀ l : List Str,
    (∀ x ∈ l, x ≠ [] ∧ ∀ ch ∈ x, ch ≠ '/') →
    isAbsoluteS (interSlash l) = false := by
  intro l h
  cases l with
  | nil => rfl
  | cons x rest =>
    have hx := h x (by simp)
    cases hc : x with
    | nil => exact absurd hc hx.1
    | cons c cx =>
      have hcne : c ≠ '/' := hx.2 c (by rw [hc]; simp)
      cases rest with
      | nil => simp [interSlash, hc, isAbsoluteS, hcne]
      | cons y ys => simp [interSlash, hc, isAbsoluteS, hcne]

/-- Resolving, against the root, the relative path Node computes from
the resolved root to an absolute path reproduces that absolute path:
`path.resolve(root, path.relative(path.resolve(root), abs)) =
path.resolve(abs)`. -/
theorem resolveAbs_relative (rootDir a : Str) :
    resolveAbs rootDir (pathRelative (resolveAbs1 rootDir) (resolveAbs1 a))
      = resolveAbs1 a := by
  obtain ⟨c, hc1, hc2⟩ := dropCommon_spec (canonSegs rootDir) (canonSegs a)
  have hfsub : ∀ x ∈ (dropCommon (canonSegs rootDir) (canonSegs a)).1,
      x ∈ canonSegs rootDir := by
    intro x hx
    rw [hc1]
    exact List.mem_append_right c hx
  have htsub : ∀ x ∈ (dropCommon (canonSegs rootDir) (canonSegs a)).2,
      x ∈ canonSegs a := by
    intro x hx
    rw [hc2]
    exact List.mem_append_right c hx
  have hrel : pathRelative (resolveAbs1 rootDir) (resolveAbs1 a)
      = interSlash (List.replicate
          (dropCommon (canonSegs rootDir) (canonSegs a)).1.length dotdot
          ++ (dropCommon (canonSegs rootDir) (canonSegs a)).2) := by
    simp only [pathRelative]
    rw [resolveAbs1_idem, resolveAbs1_idem, splitSegs_resolveAbs1,
        splitSegs_resolveAbs1]
  have hprops : ∀ x ∈ List.replicate
        (dropCommon (canonSegs rootDir) (canonSegs a)).1.length dotdot
        ++ (dropCommon (canonSegs rootDir) (canonSegs a)).2,
      x ≠ [] ∧ ∀ ch ∈ x, ch ≠ '/' := by
    intro x hx
    rcases List.mem_append.mp hx with h1 | h2
    · rw [List.eq_of_mem_replicate h1]
      exact ⟨by decide, by decide⟩
    · have := canonSegs_props a x (htsub x h2)
      exact ⟨this.1, this.2.1⟩
  have habs := interSlash_not_absW _ hprops
  have hsplitrel := splitSegs_inter _ hprops
  rw [hrel]
  simp only [resolveAbs, habs, Bool.false_eq_true, if_false]
  rw [splitSegs_append, hsplitrel]
  have hfold : normSegs false (splitSegs rootDir ++
      (List.replicate (dropCommon (canonSegs rootDir) (canonSegs a)).1.length
        dotdot ++ (dropCommon (canonSegs rootDir) (canonSegs a)).2))
      = canonSegs a := by
    unfold normSegs
    rw [List.foldl_append, List.foldl_append]
    have hs0 : List.foldl (normStep false) [] (splitSegs rootDir)
        = (canonSegs rootDir).reverse := by
      unfold canonSegs normSegs
      rw [List.reverse_reverse]
    have hpops : List.foldl (normStep false) ((canonSegs rootDir).reverse)
        (List.replicate (dropCommon (canonSegs rootDir) (canonSegs a)).1.length
          dotdot)
        = c.reverse := by
      have hys : ∀ y ∈ (dropCommon (canonSegs rootDir) (canonSegs a)).1.reverse,
          y ≠ dotdot := by
        intro y hy
        rw [List.mem_reverse] at hy
        exact (canonSegs_props rootDir y (hfsub y hy)).2.2.2
      have hp := normStep_pops
        (dropCommon (canonSegs rootDir) (canonSegs a)).1.reverse c.reverse hys
      rw [List.length_reverse] at hp
      have hstack : (canonSegs rootDir).reverse
          = (dropCommon (canonSegs rootDir) (canonSegs a)).1.reverse
            ++ c.reverse := by
        conv_lhs => rw [hc1]
        rw [List.reverse_append]
      rw [hstack]
      exact hp
    rw [hs0, hpops]
    rw [normSegs_clean_aux _ false _ (fun x hx =>
      (canonSegs_props a x (htsub x hx)).2.2)]
    rw [← List.reverse_append, List.reverse_reverse, ← hc2]
  rw [hfold]
  rfl

/-- C8 (amended): after mapping, an absolute path is accepted exactly
when its resolution has the resolved root as a string prefix — returned
as that resolution — and rejected with the path-security error
otherwise; a relative path is resolved against the root and subjected to
the same string-prefix verification. -/
theorem resolvePathWithinRoot_branches (rootDir : Str) (maps : List MapEntry)
    (p : Str) :
    (isAbsoluteS (mapPath maps p) = true →
      (hasPre (resolveAbs1 rootDir) (resolveAbs1 (mapPath maps p)) = false →
        resolvePathWithinRoot rootDir maps p = .error outsideRootMsg) ∧
      (hasPre (resolveAbs1 rootDir) (resolveAbs1 (mapPath maps p)) = true →
        resolvePathWithinRoot rootDir maps p
          = .ok (resolveAbs1 (mapPath maps p)))) ∧
    (isAbsoluteS (mapPath maps p) = false →
      resolvePathWithinRoot rootDir maps p =
        (if hasPre (resolveAbs1 rootDir) (resolveAbs rootDir (mapPath maps p))
            = true
         then .ok (resolveAbs rootDir (mapPath maps p))
         else .error outsideRootMsg)) := by
  constructor
  · intro habs
    constructor
    · intro hpre
      simp [resolvePathWithinRoot, habs, hpre]
    · intro hpre
      simp only [resolvePathWithinRoot, habs, hpre, Bool.not_true,
        Bool.false_eq_true, if_false, if_true]
      simp only [resolveWithinRoot]
      rw [resolveAbs_relative rootDir (mapPath maps p), hpre]
      simp
  · intro habs
    simp only [resolvePathWithinRoot, habs, Bool.false_eq_true, if_false]
    simp only [resolveWithinRoot]

/-- Witness for the amended C8: a mapped absolute path inside the root
is returned resolved, and a relative path goes through the
resolve-against-root check. -/
theorem resolvePathWithinRoot_branches_witness :
    resolvePathWithinRoot (strL "/w") [(strL "/c", strL "/w/sub")]
        (strL "/c/a.txt")
      = .ok (resolveAbs1 (mapPath [(strL "/c", strL "/w/sub")]
          (strL "/c/a.txt"))) ∧
    resolvePathWithinRoot (strL "/w") [] (strL "a/b")
      = (if hasPre (resolveAbs1 (strL "/w"))
            (resolveAbs (strL "/w") (mapPath [] (strL "a/b"))) = true
         then .ok (resolveAbs (strL "/w") (mapPath [] (strL "a/b")))
         else .error outsideRootMsg) :=
  ⟨((resolvePathWithinRoot_branches (strL "/w") [(strL "/c", strL "/w/sub")]
      (strL "/c/a.txt")).1 (by decide)).2 (by decide),
   (resolvePathWithinRoot_branches (strL "/w") [] (strL "a/b")).2 (by decide)⟩
